import Mathlib

/-! Verification of the propositional-logic core of `src/app.py`.

The program evaluates formula text over the variable characters p, q, r, s and the
connectives ¬ ∧ ∨ → ↔.  `evaluate_formula` substitutes truth values into the
text by a word-boundary regex substitution (`re.sub(r'\b...\b', ...)`), rewrites
each connective to the host language's operators (`not `, ` and `, ` or `,
` <= `, ` == `), and hands the resulting text to the host's general expression
evaluator.  Strings are modelled as `List Char`.  The host evaluator is
modelled by a tokenizer plus a recursive-descent parser/evaluator for the
expression fragment reachable from formula text: the literals True/False,
integer literals, `not`, `and`, `or`, the comparisons `<=`/`==`, and
parentheses, with the host's precedence (comparisons bind tighter than `not`,
then `and`, then `or`; comparisons chain pairwise) and the host's value
semantics (booleans are the integers 1 and 0, `and`/`or` return an operand,
truthiness is being nonzero).  Evaluator failures (syntax errors, unknown
names) are modelled as `none`; token shapes outside this fragment are mapped
to an error token. -/

namespace DM

/-- Word characters of the regex `\b` boundary for the character set that can
appear here: ASCII alphanumerics and underscore. -/
def isWordChar (c : Char) : Bool := c.isAlphanum || c = '_'

/-- Word-character status of the character preceding the current scan point
(`none` at the start of the string). -/
def wstat : Option Char → Bool
  | none => false
  | some c => isWordChar c

/-- Model of `re.sub(r'\b' + var + r'\b', rep, s)` for a single-character
pattern `v`: every occurrence of `v` whose original neighbours are not word
characters (or are the ends of the string) is replaced by `rep`.  The scan
carries the previous character of the original string. -/
def reSub (v : Char) (rep : List Char) : Option Char → List Char → List Char
  | _, [] => []
  | prev, c :: rest =>
    if c = v && !(wstat prev) && !(wstat rest.head?)
    then rep ++ reSub v rep (some c) rest
    else c :: reSub v rep (some c) rest

/-- Replacement text chosen for a stored truth value: `'True' if val == 'T'
else 'False'`. -/
def boolText (val : Char) : List Char :=
  if val = 'T' then "True".toList else "False".toList

/-- Substitute every variable of the assignment into the formula text, in the
order the assignment lists them (the iteration order of the source's dict). -/
def substituteVars (truth_values : List (Char × Char)) (s : List Char) : List Char :=
  truth_values.foldl (fun acc vv => reSub vv.1 (boolText vv.2) none acc) s

/-- Model of `str.replace` for a single-character pattern: every occurrence is
replaced. -/
def replaceChar (c : Char) (rep : List Char) (s : List Char) : List Char :=
  s.flatMap (fun d => if d = c then rep else [d])

/-- The five connective rewrites of `evaluate_formula`, in source order. -/
def replaceConnectives (s : List Char) : List Char :=
  replaceChar '↔' " == ".toList
    (replaceChar '→' " <= ".toList
      (replaceChar '∨' " or ".toList
        (replaceChar '∧' " and ".toList
          (replaceChar '¬' "not ".toList s))))

/-- Tokens of the host-expression fragment reachable from formula text. -/
inductive Tok where
  | TRUE | FALSE | NOT | AND | OR | LE | EQ | LP | RP
  | NUM (n : Nat)
  | ERR
deriving DecidableEq, Repr

/-- Numeric value of a digit string. -/
def digitsToNat (w : List Char) : Nat :=
  w.foldl (fun a c => 10 * a + (c.toNat - 48)) 0

/-- Classify a maximal word-character run: keyword, decimal literal (the host
rejects a leading zero on a multi-digit literal), or an unknown name, which
makes evaluation fail. -/
def classifyWord (w : List Char) : Tok :=
  if w = "True".toList then .TRUE
  else if w = "False".toList then .FALSE
  else if w = "not".toList then .NOT
  else if w = "and".toList then .AND
  else if w = "or".toList then .OR
  else if !w.isEmpty && w.all Char.isDigit && (w.head? != some '0' || w.length == 1)
  then .NUM (digitsToNat w)
  else .ERR

theorem length_dropWhile_le (p : α → Bool) (l : List α) :
    (l.dropWhile p).length ≤ l.length := by
  induction l with
  | nil => simp [List.dropWhile]
  | cons a l ih => by_cases h : p a <;> simp [List.dropWhile, h] <;> omega

/-- Tokenizer for the expression text, with explicit fuel so that it is
structurally recursive; `tokenize` below supplies sufficient fuel (each step
consumes at least one character). -/
def tokenizeF : Nat → List Char → List Tok
  | 0, _ => []
  | _, [] => []
  | fuel + 1, c :: rest =>
    if c = ' ' then tokenizeF fuel rest
    else if c = '(' then .LP :: tokenizeF fuel rest
    else if c = ')' then .RP :: tokenizeF fuel rest
    else if c = '<' then
      if rest.head? = some '=' then .LE :: tokenizeF fuel rest.tail
      else .ERR :: tokenizeF fuel rest
    else if c = '=' then
      if rest.head? = some '=' then .EQ :: tokenizeF fuel rest.tail
      else .ERR :: tokenizeF fuel rest
    else if isWordChar c then
      classifyWord (c :: rest.takeWhile isWordChar) :: tokenizeF fuel (rest.dropWhile isWordChar)
    else .ERR :: tokenizeF fuel rest

/-- Tokenizer for the expression text. -/
def tokenize (s : List Char) : List Tok := tokenizeF s.length s

/-- The tokenizer's result does not depend on the fuel, as long as the fuel
covers the length of the input. -/
theorem tokenizeF_fuel (f1 : Nat) : ∀ (f2 : Nat) (s : List Char),
    s.length ≤ f1 → s.length ≤ f2 → tokenizeF f1 s = tokenizeF f2 s := by
  induction f1 with
  | zero =>
    intro f2 s h1 _
    have : s = [] := by
      cases s with
      | nil => rfl
      | cons c r => simp at h1
    subst this
    cases f2 <;> rfl
  | succ f1 ih =>
    intro f2 s h1 h2
    cases s with
    | nil => cases f2 <;> rfl
    | cons c rest =>
      cases f2 with
      | zero => simp at h2
      | succ f2 =>
        have hr : rest.length ≤ f1 := by simpa using h1
        have hr2 : rest.length ≤ f2 := by simpa using h2
        have htail : rest.tail.length ≤ f1 :=
          le_trans (by cases rest <;> simp) hr
        have htail2 : rest.tail.length ≤ f2 :=
          le_trans (by cases rest <;> simp) hr2
        have hdrop : (rest.dropWhile isWordChar).length ≤ f1 :=
          le_trans (length_dropWhile_le _ _) hr
        have hdrop2 : (rest.dropWhile isWordChar).length ≤ f2 :=
          le_trans (length_dropWhile_le _ _) hr2
        simp only [tokenizeF]
        rw [ih f2 rest hr hr2, ih f2 rest.tail htail htail2,
          ih f2 (rest.dropWhile isWordChar) hdrop hdrop2]

/-- Host `not`: boolean result encoded as 1 / 0. -/
def pyNot (v : Int) : Int := if v = 0 then 1 else 0

/-- Host `and`: returns the left operand when it is falsy, else the right. -/
def pyAnd (a b : Int) : Int := if a = 0 then a else b

/-- Host `or`: returns the left operand when it is truthy, else the right. -/
def pyOr (a b : Int) : Int := if a = 0 then b else a

def pyLE (a b : Int) : Bool := decide (a ≤ b)

def pyEQ (a b : Int) : Bool := decide (a = b)

def boolInt (b : Bool) : Int := if b then 1 else 0

mutual
/-- Fueled recursive-descent parser/evaluator for the host expression grammar,
by precedence level: 0 atoms, 1 chained comparisons, 2 `not`, 3 `and`, 4 `or`.
Returns the value and the unconsumed tokens; `none` is a host failure. -/
def parseLvl : Nat → Nat → List Tok → Option (Int × List Tok)
  | 0, _, _ => none
  | fuel + 1, 0, toks =>
    match toks with
    | .TRUE :: r => some (1, r)
    | .FALSE :: r => some (0, r)
    | .NUM n :: r => some ((n : Int), r)
    | .LP :: r =>
      match parseLvl fuel 4 r with
      | some (v, .RP :: r2) => some (v, r2)
      | _ => none
    | _ => none
  | fuel + 1, 1, toks =>
    match parseLvl fuel 0 toks with
    | some (a, r) => cmpRest fuel a r
    | none => none
  | fuel + 1, 2, toks =>
    match toks with
    | .NOT :: r =>
      match parseLvl fuel 2 r with
      | some (v, r2) => some (pyNot v, r2)
      | none => none
    | _ => parseLvl fuel 1 toks
  | fuel + 1, 3, toks =>
    match parseLvl fuel 2 toks with
    | some (a, r) => andRest fuel a r
    | none => none
  | fuel + 1, 4, toks =>
    match parseLvl fuel 3 toks with
    | some (a, r) => orRest fuel a r
    | none => none
  | _ + 1, _ + 5, _ => none

/-- Zero or more comparison operators after a first operand; a bare operand is
returned as-is, a chain yields a boolean. -/
def cmpRest : Nat → Int → List Tok → Option (Int × List Tok)
  | 0, _, _ => none
  | fuel + 1, a, toks =>
    match toks with
    | .LE :: r =>
      match parseLvl fuel 0 r with
      | some (b, r2) => cmpChain fuel (pyLE a b) b r2
      | none => none
    | .EQ :: r =>
      match parseLvl fuel 0 r with
      | some (b, r2) => cmpChain fuel (pyEQ a b) b r2
      | none => none
    | _ => some (a, toks)

/-- Continuation of a comparison chain: `a <= b == c` is `(a <= b) and
(b == c)`, pairwise over adjacent operands. -/
def cmpChain : Nat → Bool → Int → List Tok → Option (Int × List Tok)
  | 0, _, _, _ => none
  | fuel + 1, acc, prev, toks =>
    match toks with
    | .LE :: r =>
      match parseLvl fuel 0 r with
      | some (b, r2) => cmpChain fuel (acc && pyLE prev b) b r2
      | none => none
    | .EQ :: r =>
      match parseLvl fuel 0 r with
      | some (b, r2) => cmpChain fuel (acc && pyEQ prev b) b r2
      | none => none
    | _ => some (boolInt acc, toks)

/-- Left-associated `and` chain. -/
def andRest : Nat → Int → List Tok → Option (Int × List Tok)
  | 0, _, _ => none
  | fuel + 1, a, toks =>
    match toks with
    | .AND :: r =>
      match parseLvl fuel 2 r with
      | some (b, r2) => andRest fuel (pyAnd a b) r2
      | none => none
    | _ => some (a, toks)

/-- Left-associated `or` chain. -/
def orRest : Nat → Int → List Tok → Option (Int × List Tok)
  | 0, _, _ => none
  | fuel + 1, a, toks =>
    match toks with
    | .OR :: r =>
      match parseLvl fuel 3 r with
      | some (b, r2) => orRest fuel (pyOr a b) r2
      | none => none
    | _ => some (a, toks)
end

/-- Host `eval` of a token list: a full parse of an `or`-level expression.
The fuel is generous; every recursive call either consumes a token or moves
down the five-level grammar, so `10 * length + 10` always suffices. -/
def pyEval (toks : List Tok) : Option Int :=
  match parseLvl (10 * toks.length + 10) 4 toks with
  | some (v, []) => some v
  | _ => none

/-- Model of `evaluate_formula`: substitute the assignment, rewrite the
connectives, evaluate; a truthy result is `'T'`, a falsy one `'F'`, a host
failure is `none` (the source wraps it into a `ValueError`). -/
def evaluate_formula (formula : List Char) (truth_values : List (Char × Char)) :
    Option Char :=
  match pyEval (tokenize (replaceConnectives (substituteVars truth_values formula))) with
  | some v => some (if v = 0 then 'F' else 'T')
  | none => none

/-- The recognized variable characters, in canonical order. -/
def varChars : List Char := ['p', 'q', 'r', 's']

/-- Model of `extract_variables`: the distinct variable characters occurring in
the text, sorted (the source collects them into a set and sorts it). -/
def extract_variables (formula : List Char) : List Char :=
  List.insertionSort (· ≤ ·) (formula.filter (fun c => c ∈ varChars)).dedup

/-- Model of `generate_truth_combinations`: assignment `i` maps the `j`-th
variable to `'T'` exactly when bit `n - 1 - j` of `i` is set. -/
def generate_truth_combinations (vars : List Char) : List (List (Char × Char)) :=
  (List.range (2 ^ vars.length)).map (fun i =>
    vars.enum.map (fun jv =>
      (jv.2, if (i >>> (vars.length - 1 - jv.1)) &&& 1 = 1 then 'T' else 'F')))

/-- Evaluate a whole list of rows; a single failure aborts the computation
(the source's exception propagating out of the list comprehension). -/
def sequenceOpt {α : Type} : List (Option α) → Option (List α)
  | [] => some []
  | none :: _ => none
  | some a :: l =>
    match sequenceOpt l with
    | some r => some (a :: r)
    | none => none

inductive Classification where
  | tautology | contradiction | contingent
deriving DecidableEq, Repr

/-- The classification branch of `truth_table_generator`. -/
def classify (results : List Char) : Classification :=
  if results.all (fun r => r = 'T') then .tautology
  else if results.all (fun r => r = 'F') then .contradiction
  else .contingent

/-- Outcome of the single-formula view: blank input renders nothing, a formula
without vars is rejected, an evaluator failure is reported as an error,
otherwise the table and the classification are shown. -/
inductive TabOutcome where
  | skipped
  | noVariables
  | evalError
  | table (rows : List (List (Char × Char) × Char)) (cls : Classification)
deriving DecidableEq, Repr

/-- Model of the computational content of `truth_table_generator`. -/
def truth_table_generator (formula : List Char) : TabOutcome :=
  if formula.isEmpty then .skipped
  else
    let vars := extract_variables formula
    if vars.isEmpty then .noVariables
    else
      let combinations := generate_truth_combinations vars
      match sequenceOpt (combinations.map (evaluate_formula formula)) with
      | none => .evalError
      | some results => .table (combinations.zip results) (classify results)

/-- Outcome of the comparison view. -/
inductive EqOutcome where
  | skipped
  | evalError
  | report (all_vars : List Char) (rows : List (List (Char × Char) × Char × Char))
      (differences : List (Nat × List (Char × Char) × Char × Char))
      (is_equivalent : Bool)
deriving DecidableEq, Repr

/-- Model of the computational content of `formula_equivalence`: the sorted
union of the two variable sets, one row per assignment with both results, the
divergent rows with their 0-based index, and the equivalence verdict. -/
def formula_equivalence (formula1 formula2 : List Char) : EqOutcome :=
  if formula1.isEmpty || formula2.isEmpty then .skipped
  else
    let all_vars := List.insertionSort (· ≤ ·)
      (extract_variables formula1 ++ extract_variables formula2).dedup
    let combinations := generate_truth_combinations all_vars
    match sequenceOpt (combinations.map (evaluate_formula formula1)),
          sequenceOpt (combinations.map (evaluate_formula formula2)) with
    | some results1, some results2 =>
      let rows := combinations.zip (results1.zip results2)
      let differences := rows.enum.filterMap (fun pr =>
        if pr.2.2.1 ≠ pr.2.2.2 then some (pr.1, pr.2.1, pr.2.2.1, pr.2.2.2) else none)
      .report all_vars rows differences differences.isEmpty
    | _, _ => .evalError

/-- The rendering of the divergence list (source line 160) shows each
divergence under the 1-based index `idx + 1`. -/
def displayed_differences (differences : List (Nat × List (Char × Char) × Char × Char)) :
    List (Nat × List (Char × Char) × Char × Char) :=
  differences.map (fun d => (d.1 + 1, d.2))

/-- Flip of a stored truth value. -/
def flipTF (c : Char) : Char := if c = 'T' then 'F' else 'T'

/-- The four vars, as an enumeration. -/
inductive V where
  | p | q | r | s
deriving DecidableEq, Repr

def V.toChar : V → Char
  | .p => 'p'
  | .q => 'q'
  | .r => 'r'
  | .s => 's'

/-- Formula syntax trees, used to quantify over all formulas whose grouping is
explicit. -/
inductive Formula where
  | var (v : V)
  | neg (A : Formula)
  | conj (A B : Formula)
  | disj (A B : Formula)
  | impl (A B : Formula)
  | iffc (A B : Formula)
deriving DecidableEq, Repr

/-- Modelled from the spec: the truth-functional semantics
`¬A = not A`, `A∧B = A and B`, `A∨B = A or B`, `A→B = (not A) or B`,
`A↔B = (A == B)`. -/
def denote : Formula → (V → Bool) → Bool
  | .var v, σ => σ v
  | .neg A, σ => !denote A σ
  | .conj A B, σ => denote A σ && denote B σ
  | .disj A B, σ => denote A σ || denote B σ
  | .impl A B, σ => !denote A σ || denote B σ
  | .iffc A B, σ => denote A σ == denote B σ

mutual
/-- Text of a formula tree: a single connective applied to operands, each
operand a bare variable or an explicitly parenthesized subformula. -/
def render : Formula → List Char
  | .var v => [v.toChar]
  | .neg A => '¬' :: wrapR A
  | .conj A B => wrapR A ++ '∧' :: wrapR B
  | .disj A B => wrapR A ++ '∨' :: wrapR B
  | .impl A B => wrapR A ++ '→' :: wrapR B
  | .iffc A B => wrapR A ++ '↔' :: wrapR B

/-- Operand text: vars stand bare, anything compound is parenthesized. -/
def wrapR : Formula → List Char
  | .var v => [v.toChar]
  | F => '(' :: (render F ++ [')'])
end

/-- Conversion from a variable character (used where the character is known to
be one of p, q, r, s). -/
def charToV (c : Char) : V :=
  if c = 'p' then .p else if c = 'q' then .q else if c = 'r' then .r else .s

/-- The assignment dictionary the table builder passes to `evaluate_formula`:
one entry per extracted variable, in extraction order. -/
def canonDict (F : Formula) (σ : V → Bool) : List (Char × Char) :=
  (extract_variables (render F)).map (fun c => (c, if σ (charToV c) then 'T' else 'F'))

/-! Lemmas about the word-boundary substitution. -/

/-- The decisions of `reSub` depend on the previous character only through its
word-character status. -/
theorem reSub_prev_congr (v : Char) (rep : List Char) (s : List Char)
    (p1 p2 : Option Char) (h : wstat p1 = wstat p2) :
    reSub v rep p1 s = reSub v rep p2 s := by
  cases s with
  | nil => rfl
  | cons c rest => simp only [reSub, h]

/-- Texts that can be substituted for a variable. -/
def TFText (r : List Char) : Prop := r = "True".toList ∨ r = "False".toList

theorem TFText.all_word {r : List Char} (h : TFText r) :
    ∀ c ∈ r, isWordChar c = true := by
  rcases h with h | h <;> subst h <;> decide

theorem TFText.head_wstat {r : List Char} (h : TFText r) : wstat r.head? = true := by
  rcases h with h | h <;> subst h <;> decide

theorem TFText.head_ne_var {r : List Char} (h : TFText r) {v : Char}
    (hv : v ∈ varChars) : r.head? ≠ some v := by
  rcases h with h | h <;> subst h <;> fin_cases hv <;> decide

/-- The previous-character state after scanning over `w`. -/
def prevAfter : List Char → Option Char → Option Char
  | [], p => p
  | c :: w, p => prevAfter w (some c)

theorem TFText.prevAfter_wstat {r : List Char} (h : TFText r) (p : Option Char) :
    wstat (prevAfter r p) = true := by
  rcases h with h | h <;> subst h <;> rfl

/-- Substitution skips over a run of word characters whose first character
cannot start a match. -/
theorem reSub_skip (v : Char) (rep : List Char) (w : List Char) :
    ∀ (p : Option Char) (t : List Char),
    (∀ c ∈ w, isWordChar c = true) → (w.head? = some v → wstat p = true) →
    reSub v rep p (w ++ t) = w ++ reSub v rep (prevAfter w p) t := by
  induction w with
  | nil => intro p t _ _; rfl
  | cons c w' ih =>
    intro p t hall hhead
    have hcw : isWordChar c = true := hall c (by simp)
    have hcond : (decide (c = v) && !wstat p && !wstat ((w' ++ t)).head?) = false := by
      by_cases hcv : c = v
      · have hp := hhead (by simp [hcv])
        simp [hp]
      · simp [hcv]
    simp only [List.cons_append, reSub, List.append_eq]
    rw [hcond]
    simp only [Bool.false_eq_true, if_false]
    rw [ih (some c) t (fun d hd => hall d (by simp [hd]))
        (fun _ => by simp [wstat, hcw])]
    rfl

/-- Appending a non-word, non-variable character commutes with substitution. -/
theorem reSub_append_nonword (v : Char) (rep : List Char) (c : Char)
    (hc : isWordChar c = false) (hvc : v ≠ c) (s : List Char) :
    ∀ p, reSub v rep p (s ++ [c]) = reSub v rep p s ++ [c] := by
  induction s with
  | nil =>
    intro p
    have hne : ¬(c = v) := fun h => hvc h.symm
    simp [reSub, hne]
  | cons d s' ih =>
    intro p
    have hw : wstat ((s' ++ [c]).head?) = wstat s'.head? := by
      cases s' <;> simp [wstat, hc]
    simp only [List.cons_append, reSub, List.append_eq, hw]
    by_cases hcond : (decide (d = v) && !wstat p && !wstat s'.head?) = true
    · rw [if_pos hcond, if_pos hcond, ih (some d), List.append_assoc]
    · rw [if_neg hcond, if_neg hcond, ih (some d)]
      rfl

/-- Substitution preserves emptiness and the word status of the first
character. -/
theorem reSub_head_wstat (v : Char) (rep : List Char) (hv : isWordChar v = true)
    (hrep : wstat rep.head? = true) (p : Option Char) (s : List Char) :
    wstat (reSub v rep p s).head? = wstat s.head? := by
  cases s with
  | nil => rfl
  | cons c rest =>
    simp only [reSub]
    by_cases hc : (c = v && !wstat p && !wstat rest.head?) = true
    · rw [if_pos hc]
      have hcv : c = v := by
        have := hc
        simp only [Bool.and_eq_true, decide_eq_true_eq] at this
        exact this.1.1
      cases rep with
      | nil => simp [wstat] at hrep
      | cons rc rrest =>
        simp only [List.cons_append, List.head?_cons]
        simp only [List.head?_cons, wstat] at hrep ⊢
        rw [hrep, hcv, hv]
    · rw [if_neg hc]
      simp [wstat]

/-- Substitutions of True/False texts for two distinct variables commute, on
any string: a replaced occurrence has non-word neighbours, the replacement
texts are word-character runs that can never contain a whole-word occurrence
of a variable, and splicing them in changes no other occurrence's boundary
status. -/
theorem reSub_comm (a b : Char) (ra rb : List Char)
    (ha : a ∈ varChars) (hb : b ∈ varChars) (hab : a ≠ b)
    (hra : TFText ra) (hrb : TFText rb) (s : List Char) :
    ∀ (p p' : Option Char), wstat p = wstat p' →
    reSub a ra p (reSub b rb p' s) = reSub b rb p' (reSub a ra p s) := by
  have haw : isWordChar a = true := by fin_cases ha <;> decide
  have hbw : isWordChar b = true := by fin_cases hb <;> decide
  induction s with
  | nil => intro p p' _; rfl
  | cons c s' ih =>
    intro p p' hpp
    have hYh := reSub_head_wstat b rb hbw hrb.head_wstat (some c) s'
    have hXh := reSub_head_wstat a ra haw hra.head_wstat (some c) s'
    by_cases hA : (decide (c = a) && !wstat p && !wstat s'.head?) = true
    · obtain ⟨⟨hca, hnp⟩, haft⟩ : (c = a ∧ wstat p = false) ∧ wstat s'.head? = false := by
        simpa [Bool.and_eq_true] using hA
      have hcb : ¬(c = b) := by rw [hca]; exact hab
      have h1 : reSub b rb p' (c :: s') = c :: reSub b rb (some c) s' := by
        simp only [reSub]
        have hf : (decide (c = b) && !wstat p' && !wstat s'.head?) = false := by
          simp [hcb]
        rw [hf]
        simp
      have h2 : reSub a ra p (c :: s') = ra ++ reSub a ra (some c) s' := by
        simp only [reSub]
        rw [hA]
        simp
      rw [h1, h2]
      have h3 : reSub a ra p (c :: reSub b rb (some c) s') =
          ra ++ reSub a ra (some c) (reSub b rb (some c) s') := by
        simp only [reSub]
        have ht : (decide (c = a) && !wstat p &&
            !wstat (reSub b rb (some c) s').head?) = true := by
          rw [hYh]
          exact hA
        rw [ht]
        simp
      have h4 : reSub b rb p' (ra ++ reSub a ra (some c) s') =
          ra ++ reSub b rb (prevAfter ra p') (reSub a ra (some c) s') :=
        reSub_skip b rb ra p' _ hra.all_word
          (fun hh => absurd hh (hra.head_ne_var hb))
      rw [h3, h4]
      congr 1
      rw [ih (some c) (some c) rfl]
      exact reSub_prev_congr b rb _ (some c) (prevAfter ra p')
        (by rw [hra.prevAfter_wstat p']; simp [wstat, hca, haw])
    · have hA' : (decide (c = a) && !wstat p && !wstat s'.head?) = false := by
        revert hA
        cases h : (decide (c = a) && !wstat p && !wstat s'.head?) <;> simp
      by_cases hB : (decide (c = b) && !wstat p' && !wstat s'.head?) = true
      · obtain ⟨⟨hcb, hnp⟩, haft⟩ : (c = b ∧ wstat p' = false) ∧ wstat s'.head? = false := by
          simpa [Bool.and_eq_true] using hB
        have hca : ¬(c = a) := by rw [hcb]; exact hab.symm
        have h1 : reSub a ra p (c :: s') = c :: reSub a ra (some c) s' := by
          simp only [reSub]
          have hf : (decide (c = a) && !wstat p && !wstat s'.head?) = false := by
            simp [hca]
          rw [hf]
          simp
        have h2 : reSub b rb p' (c :: s') = rb ++ reSub b rb (some c) s' := by
          simp only [reSub]
          rw [hB]
          simp
        rw [h1, h2]
        have h3 : reSub b rb p' (c :: reSub a ra (some c) s') =
            rb ++ reSub b rb (some c) (reSub a ra (some c) s') := by
          simp only [reSub]
          have ht : (decide (c = b) && !wstat p' &&
              !wstat (reSub a ra (some c) s').head?) = true := by
            rw [hXh]
            exact hB
          rw [ht]
          simp
        have h4 : reSub a ra p (rb ++ reSub b rb (some c) s') =
            rb ++ reSub a ra (prevAfter rb p) (reSub b rb (some c) s') :=
          reSub_skip a ra rb p _ hrb.all_word
            (fun hh => absurd hh (hrb.head_ne_var ha))
        rw [h3, h4]
        congr 1
        rw [reSub_prev_congr a ra _ (prevAfter rb p) (some c)
          (by rw [hrb.prevAfter_wstat p]; simp [wstat, hcb, hbw])]
        exact ih (some c) (some c) rfl
      · have hB' : (decide (c = b) && !wstat p' && !wstat s'.head?) = false := by
          revert hB
          cases h : (decide (c = b) && !wstat p' && !wstat s'.head?) <;> simp
        have h1 : reSub b rb p' (c :: s') = c :: reSub b rb (some c) s' := by
          simp only [reSub]
          rw [hB']
          simp
        have h2 : reSub a ra p (c :: s') = c :: reSub a ra (some c) s' := by
          simp only [reSub]
          rw [hA']
          simp
        rw [h1, h2]
        have h3 : reSub a ra p (c :: reSub b rb (some c) s') =
            c :: reSub a ra (some c) (reSub b rb (some c) s') := by
          simp only [reSub]
          have hf : (decide (c = a) && !wstat p &&
              !wstat (reSub b rb (some c) s').head?) = false := by
            rw [hYh]
            exact hA'
          rw [hf]
          simp
        have h4 : reSub b rb p' (c :: reSub a ra (some c) s') =
            c :: reSub b rb (some c) (reSub a ra (some c) s') := by
          simp only [reSub]
          have hf : (decide (c = b) && !wstat p' &&
              !wstat (reSub a ra (some c) s').head?) = false := by
            rw [hXh]
            exact hB'
          rw [hf]
          simp
        rw [h3, h4]
        exact congrArg _ (ih (some c) (some c) rfl)

/-- Folding an assignment with distinct variable keys over a string is
invariant under permuting the assignment's entries. -/
theorem substituteVars_perm (s : List Char) (tv1 tv2 : List (Char × Char))
    (hperm : tv1.Perm tv2) (hkeys : ∀ x ∈ tv1, x.1 ∈ varChars)
    (hnodup : (tv1.map Prod.fst).Nodup) :
    substituteVars tv1 s = substituteVars tv2 s := by
  induction hperm generalizing s with
  | nil => rfl
  | cons x h ih =>
    simp only [substituteVars, List.foldl_cons] at *
    exact ih _ (fun y hy => hkeys y (List.mem_cons_of_mem x hy))
      (by simpa using hnodup.of_cons)
  | swap x y l =>
    simp only [substituteVars, List.foldl_cons] at *
    have hxy : y.1 ≠ x.1 := by
      simp only [List.map_cons, List.nodup_cons] at hnodup
      intro h
      exact hnodup.1 (by simp [h])
    rw [reSub_comm x.1 y.1 (boolText x.2) (boolText y.2)
      (hkeys x (by simp)) (hkeys y (by simp)) (fun h => hxy h.symm)
      (by unfold boolText TFText; split <;> simp)
      (by unfold boolText TFText; split <;> simp)
      s none none rfl]
  | trans h1 h2 ih1 ih2 =>
    rw [ih1 s hkeys hnodup,
      ih2 s (fun y hy => hkeys y (h1.mem_iff.mpr hy))
        (((h1.map Prod.fst).nodup_iff).mp hnodup)]

/-- C10: for every formula text and every assignment with distinct variable
keys, the result of `evaluate_formula` is independent of the order in which
the variables are substituted into the text: word-boundary matching never
rewrites characters inside a previously inserted True/False text (the `s` of
`False` and the `r` of `True` sit between word characters) and never changes
the boundary status of another variable's occurrence, so any two substitution
orders yield the same final expression and the same result. -/
theorem substitution_order_irrelevant (s : List Char) (tv1 tv2 : List (Char × Char))
    (hperm : tv1.Perm tv2) (hkeys : ∀ x ∈ tv1, x.1 ∈ varChars)
    (hnodup : (tv1.map Prod.fst).Nodup) :
    substituteVars tv1 s = substituteVars tv2 s ∧
    evaluate_formula s tv1 = evaluate_formula s tv2 := by
  have h := substituteVars_perm s tv1 tv2 hperm hkeys hnodup
  refine ⟨h, ?_⟩
  unfold evaluate_formula
  rw [h]

theorem substitution_order_irrelevant_witness :
    substituteVars [('p', 'T'), ('q', 'F')] "p∧q".toList =
      substituteVars [('q', 'F'), ('p', 'T')] "p∧q".toList ∧
    evaluate_formula "p∧q".toList [('p', 'T'), ('q', 'F')] =
      evaluate_formula "p∧q".toList [('q', 'F'), ('p', 'T')] :=
  substitution_order_irrelevant "p∧q".toList
    [('p', 'T'), ('q', 'F')] [('q', 'F'), ('p', 'T')]
    (List.Perm.swap ('q', 'F') ('p', 'T') []) (by decide) (by decide)

/-! Variable extraction and assignment enumeration. -/

/-- Sorting the distinct variable characters of a text equals filtering the
canonically ordered universe p, q, r, s by occurrence. -/
theorem extract_variables_eq (s : List Char) :
    extract_variables s = varChars.filter (fun c => decide (c ∈ s)) := by
  have hnd1 : ((s.filter (fun c => c ∈ varChars)).dedup).Nodup := List.nodup_dedup _
  have hsorted2 : List.Sorted (· ≤ ·) (varChars.filter (fun c => decide (c ∈ s))) :=
    List.Sorted.filter _ (by decide)
  have hnd2 : (varChars.filter (fun c => decide (c ∈ s))).Nodup :=
    List.Nodup.filter _ (by decide)
  apply List.eq_of_perm_of_sorted _ (List.sorted_insertionSort _ _) hsorted2
  apply List.Perm.trans (List.perm_insertionSort _ _)
  rw [List.perm_ext_iff_of_nodup hnd1 hnd2]
  intro a
  simp [List.mem_dedup, List.mem_filter, and_comm]

/-- C9: `extract_variables` returns exactly the set of characters from
p, q, r, s occurring in the input, without duplicates, sorted in the canonical
order p < q < r < s (and, being a pure function, it is deterministic). -/
theorem extract_variables_spec (s : List Char) :
    (∀ c, c ∈ extract_variables s ↔ (c ∈ s ∧ c ∈ varChars)) ∧
    (extract_variables s).Nodup ∧
    List.Sorted (· < ·) (extract_variables s) := by
  rw [extract_variables_eq]
  refine ⟨?_, ?_, ?_⟩
  · intro c
    simp [List.mem_filter, and_comm]
  · exact List.Nodup.filter _ (by decide)
  · exact List.Sorted.filter _ (by decide)

/-- One evaluation failure aborts the whole row computation; on success the
result list has one entry per row. -/
theorem sequenceOpt_length {α : Type} :
    ∀ (l : List (Option α)) (r : List α), sequenceOpt l = some r → r.length = l.length := by
  intro l
  induction l with
  | nil => intro r h; simp [sequenceOpt] at h; simp [← h]
  | cons o l ih =>
    intro r h
    cases o with
    | none => simp [sequenceOpt] at h
    | some a =>
      simp only [sequenceOpt] at h
      cases hrec : sequenceOpt l with
      | none => rw [hrec] at h; simp at h
      | some rr =>
        rw [hrec] at h
        simp only [Option.some_inj] at h
        subst h
        simp [ih rr hrec]

/-- Positions of a successful row computation evaluate pointwise. -/
theorem sequenceOpt_getElem {α : Type} :
    ∀ (l : List (Option α)) (r : List α), sequenceOpt l = some r →
    ∀ (i : Nat) (hi : i < l.length) (hir : i < r.length), l[i] = some r[i] := by
  intro l
  induction l with
  | nil => intro r _ i hi; simp at hi
  | cons o l ih =>
    intro r h i hi hir
    cases o with
    | none => simp [sequenceOpt] at h
    | some a =>
      simp only [sequenceOpt] at h
      cases hrec : sequenceOpt l with
      | none => rw [hrec] at h; simp at h
      | some rr =>
        rw [hrec] at h
        simp only [Option.some_inj] at h
        subst h
        cases i with
        | zero => simp
        | succ n =>
          simp only [List.getElem_cons_succ]
          exact ih rr hrec n (by simpa using hi) (by simpa using hir)

theorem generate_length (vs : List Char) :
    (generate_truth_combinations vs).length = 2 ^ vs.length := by
  simp [generate_truth_combinations]

/-- What a successful run of the table builder consists of. -/
theorem ttg_table_elim {f : List Char} {rows : List (List (Char × Char) × Char)}
    {cls : Classification} (h : truth_table_generator f = .table rows cls) :
    f.isEmpty = false ∧ (extract_variables f).isEmpty = false ∧
    ∃ results,
      sequenceOpt ((generate_truth_combinations (extract_variables f)).map
        (evaluate_formula f)) = some results ∧
      rows = (generate_truth_combinations (extract_variables f)).zip results ∧
      cls = classify results := by
  simp only [truth_table_generator] at h
  split at h
  · exact absurd h (by simp)
  next h1 =>
    split at h
    · exact absurd h (by simp)
    next h2 =>
      split at h
      · exact absurd h (by simp)
      next results hres =>
        injection h with hr hc
        exact ⟨by simpa using h1, by simpa using h2,
          results, hres, hr.symm, hc.symm⟩

/-- C2: the enumerator returns exactly `2 ^ n` assignments; assignment `i`
maps variable `j` (0-indexed in the sorted list) to `'T'` exactly when the
`j`-th bit from the most significant end of `i`'s `n`-bit representation,
namely `i / 2 ^ (n - 1 - j) % 2`, is 1; and a produced truth table has
exactly `2 ^ n` rows whose assignments are this enumeration in order. -/
theorem generate_truth_combinations_spec :
    (∀ vs : List Char, (generate_truth_combinations vs).length = 2 ^ vs.length) ∧
    (∀ (vs : List Char) (i j : Nat), i < 2 ^ vs.length → j < vs.length →
      ((generate_truth_combinations vs).getD i []).getD j (' ', ' ') =
        (vs.getD j ' ',
          if i / 2 ^ (vs.length - 1 - j) % 2 = 1 then 'T' else 'F')) ∧
    (∀ (f : List Char) (rows : List (List (Char × Char) × Char)) (cls : Classification),
      truth_table_generator f = .table rows cls →
      rows.length = 2 ^ (extract_variables f).length ∧
      rows.map Prod.fst = generate_truth_combinations (extract_variables f)) := by
  refine ⟨generate_length, ?_, ?_⟩
  · intro vs i j hi hj
    have hi' : i < (generate_truth_combinations vs).length := by
      rw [generate_length]; exact hi
    rw [List.getD_eq_getElem _ _ hi']
    simp only [generate_truth_combinations, List.getElem_map, List.getElem_range]
    have hj' : j < (vs.enum.map (fun jv =>
        (jv.2, if (i >>> (vs.length - 1 - jv.1)) &&& 1 = 1 then 'T' else 'F'))).length := by
      simpa [List.enum_length] using hj
    rw [List.getD_eq_getElem _ _ hj']
    rw [List.getD_eq_getElem vs ' ' hj]
    simp only [List.getElem_map, List.getElem_enum]
    simp only [Nat.shiftRight_eq_div_pow, Nat.and_one_is_mod]
  · intro f rows cls h
    obtain ⟨-, -, results, hres, hrows, -⟩ := ttg_table_elim h
    have hlen : results.length =
        (generate_truth_combinations (extract_variables f)).length := by
      have := sequenceOpt_length _ _ hres
      simpa using this
    subst hrows
    constructor
    · rw [List.length_zip, hlen, generate_length]
      simp
    · exact List.map_fst_zip _ _ (by rw [hlen])

theorem generate_truth_combinations_spec_witness :
    ((generate_truth_combinations ['p', 'q']).getD 2 []).getD 0 (' ', ' ') =
      (['p', 'q'].getD 0 ' ',
        if 2 / 2 ^ (['p', 'q'].length - 1 - 0) % 2 = 1 then 'T' else 'F') ∧
    ([([('p', 'F')], 'T'), ([('p', 'T')], 'T')].length =
        2 ^ (extract_variables "p∨¬p".toList).length ∧
      [([('p', 'F')], 'T'), ([('p', 'T')], 'T')].map Prod.fst =
        generate_truth_combinations (extract_variables "p∨¬p".toList)) :=
  ⟨generate_truth_combinations_spec.2.1 ['p', 'q'] 2 0 (by decide) (by decide),
   generate_truth_combinations_spec.2.2 "p∨¬p".toList
     [([('p', 'F')], 'T'), ([('p', 'T')], 'T')] .tautology (by decide)⟩

/-- The three-way classification in terms of the result column. -/
theorem classify_eq (results : List Char) (hne : results ≠ []) :
    (classify results = .tautology ↔ ∀ r ∈ results, r = 'T') ∧
    (classify results = .contradiction ↔ ∀ r ∈ results, r = 'F') ∧
    (classify results = .contingent ↔
      ¬(∀ r ∈ results, r = 'T') ∧ ¬(∀ r ∈ results, r = 'F')) := by
  have hexcl : ¬((∀ r ∈ results, r = 'T') ∧ (∀ r ∈ results, r = 'F')) := by
    rintro ⟨hT, hF⟩
    obtain ⟨r0, rest, rfl⟩ := List.exists_cons_of_ne_nil hne
    have h1 := hT r0 (by simp)
    have h2 := hF r0 (by simp)
    rw [h1] at h2
    exact absurd h2 (by decide)
  unfold classify
  split
  next hb =>
    have hT : ∀ r ∈ results, r = 'T' := by simpa [List.all_eq_true] using hb
    have hF : ¬∀ r ∈ results, r = 'F' := fun hF => hexcl ⟨hT, hF⟩
    exact ⟨iff_of_true rfl hT, iff_of_false (by simp) hF,
      iff_of_false (by simp) (fun hc => hc.1 hT)⟩
  next hb =>
    have hT : ¬∀ r ∈ results, r = 'T' := by
      intro hT
      exact hb (by simpa [List.all_eq_true] using hT)
    split
    next hb2 =>
      have hF : ∀ r ∈ results, r = 'F' := by simpa [List.all_eq_true] using hb2
      exact ⟨iff_of_false (by simp) hT, iff_of_true rfl hF,
        iff_of_false (by simp) (fun hc => hc.2 hF)⟩
    next hb2 =>
      have hF : ¬∀ r ∈ results, r = 'F' := by
        intro hF
        exact hb2 (by simpa [List.all_eq_true] using hF)
      exact ⟨iff_of_false (by simp) hT, iff_of_false (by simp) hF,
        iff_of_true rfl ⟨hT, hF⟩⟩

/-- C3: a produced table is classified Tautology iff every row's result is
true, Contradiction iff every row's result is false, and Contingent exactly
otherwise; the three labels are mutually exclusive and exhaustive. -/
theorem truth_table_classification_spec (f : List Char)
    (rows : List (List (Char × Char) × Char)) (cls : Classification)
    (h : truth_table_generator f = .table rows cls) :
    (cls = .tautology ↔ ∀ row ∈ rows, row.2 = 'T') ∧
    (cls = .contradiction ↔ ∀ row ∈ rows, row.2 = 'F') ∧
    (cls = .contingent ↔
      ¬(∀ row ∈ rows, row.2 = 'T') ∧ ¬(∀ row ∈ rows, row.2 = 'F')) := by
  obtain ⟨-, -, results, hres, hrows, hcls⟩ := ttg_table_elim h
  have hlen : results.length =
      (generate_truth_combinations (extract_variables f)).length := by
    simpa using sequenceOpt_length _ _ hres
  have hmap : rows.map Prod.snd = results := by
    rw [hrows]
    exact List.map_snd_zip _ _ (by rw [hlen])
  have hne : results ≠ [] := by
    have hpos : 0 < results.length := by
      rw [hlen, generate_length]
      positivity
    exact List.ne_nil_of_length_pos hpos
  have hc := classify_eq results hne
  subst hcls
  have quant : ∀ (x : Char), (∀ row ∈ rows, row.2 = x) ↔ (∀ r ∈ results, r = x) := by
    intro x
    rw [← hmap]
    constructor
    · intro hh r hr
      obtain ⟨row, hrow, rfl⟩ := List.mem_map.mp hr
      exact hh row hrow
    · intro hh row hrow
      exact hh row.2 (List.mem_map.mpr ⟨row, hrow, rfl⟩)
  refine ⟨?_, ?_, ?_⟩
  · rw [quant 'T']
    exact hc.1
  · rw [quant 'F']
    exact hc.2.1
  · rw [quant 'T', quant 'F']
    exact hc.2.2

theorem truth_table_classification_spec_witness :
    (Classification.contradiction = Classification.tautology ↔
      ∀ row ∈ [([('p', 'F')], 'F'), ([('p', 'T')], 'F')], row.2 = 'T') ∧
    (Classification.contradiction = Classification.contradiction ↔
      ∀ row ∈ [([('p', 'F')], 'F'), ([('p', 'T')], 'F')], row.2 = 'F') ∧
    (Classification.contradiction = Classification.contingent ↔
      ¬(∀ row ∈ [([('p', 'F')], 'F'), ([('p', 'T')], 'F')], row.2 = 'T') ∧
      ¬(∀ row ∈ [([('p', 'F')], 'F'), ([('p', 'T')], 'F')], row.2 = 'F')) :=
  truth_table_classification_spec "p∧¬p".toList
    [([('p', 'F')], 'F'), ([('p', 'T')], 'F')] .contradiction (by decide)

/-- Membership in the divergence list collected by the comparison loop. -/
theorem diffs_mem (rows : List (List (Char × Char) × Char × Char)) :
    ∀ (n i : Nat) (c : List (Char × Char)) (r1 r2 : Char),
    ((i, c, r1, r2) ∈ (rows.enumFrom n).filterMap (fun pr =>
        if pr.2.2.1 ≠ pr.2.2.2 then some (pr.1, pr.2.1, pr.2.2.1, pr.2.2.2) else none) ↔
      ∃ j, i = n + j ∧ rows[j]? = some (c, r1, r2) ∧ r1 ≠ r2) := by
  induction rows with
  | nil => intro n i c r1 r2; simp
  | cons row rows ih =>
    intro n i c r1 r2
    rw [List.enumFrom_cons, List.filterMap_cons]
    by_cases hd : row.2.1 ≠ row.2.2
    · rw [if_pos hd]
      simp only [List.mem_cons, ih (n + 1), Prod.mk.injEq]
      constructor
      · rintro (⟨hi, hc, h1, h2⟩ | ⟨j, hi, hj, hne⟩)
        · exact ⟨0, by omega, by simp [hc, h1, h2], by rw [h1, h2]; exact hd⟩
        · exact ⟨j + 1, by omega, by simpa using hj, hne⟩
      · rintro ⟨j, hi, hj, hne⟩
        cases j with
        | zero =>
          simp only [List.getElem?_cons_zero, Option.some_inj] at hj
          exact Or.inl ⟨by omega, by simp [hj], by simp [hj], by simp [hj]⟩
        | succ j =>
          simp only [List.getElem?_cons_succ] at hj
          exact Or.inr ⟨j, by omega, hj, hne⟩
    · rw [if_neg hd]
      push_neg at hd
      rw [ih (n + 1)]
      constructor
      · rintro ⟨j, hi, hj, hne⟩
        exact ⟨j + 1, by omega, by simpa using hj, hne⟩
      · rintro ⟨j, hi, hj, hne⟩
        cases j with
        | zero =>
          simp only [List.getElem?_cons_zero, Option.some_inj] at hj
          exfalso
          apply hne
          have hdd := hd
          rw [hj] at hdd
          simpa using hdd
        | succ j =>
          simp only [List.getElem?_cons_succ] at hj
          exact ⟨j, by omega, hj, hne⟩

/-- What a successful run of the comparison view consists of. -/
theorem fe_report_elim {f1 f2 av : List Char}
    {rows : List (List (Char × Char) × Char × Char)}
    {diffs : List (Nat × List (Char × Char) × Char × Char)} {eqv : Bool}
    (h : formula_equivalence f1 f2 = .report av rows diffs eqv) :
    av = List.insertionSort (· ≤ ·)
      (extract_variables f1 ++ extract_variables f2).dedup ∧
    ∃ results1 results2,
      sequenceOpt ((generate_truth_combinations av).map (evaluate_formula f1)) =
        some results1 ∧
      sequenceOpt ((generate_truth_combinations av).map (evaluate_formula f2)) =
        some results2 ∧
      rows = (generate_truth_combinations av).zip (results1.zip results2) ∧
      diffs = rows.enum.filterMap (fun pr =>
        if pr.2.2.1 ≠ pr.2.2.2 then some (pr.1, pr.2.1, pr.2.2.1, pr.2.2.2) else none) ∧
      eqv = diffs.isEmpty := by
  simp only [formula_equivalence] at h
  split at h
  · exact absurd h (by simp)
  · split at h
    next results1 results2 hres1 hres2 =>
      injection h with hav hrows hdiffs heqv
      subst hav
      subst hrows
      subst hdiffs
      subst heqv
      exact ⟨rfl, results1, results2, hres1, hres2, rfl, rfl, rfl⟩
    next =>
      exact absurd h (by simp)

/-- C4: the equivalence checker enumerates assignments over the sorted union
of the two formulas' variable sets, reports equivalence exactly when the two
result columns agree on every row, and reports each divergent row — under its
1-based index in the displayed list — with the full assignment and both
results. -/
theorem formula_equivalence_spec (f1 f2 av : List Char)
    (rows : List (List (Char × Char) × Char × Char))
    (diffs : List (Nat × List (Char × Char) × Char × Char)) (eqv : Bool)
    (h : formula_equivalence f1 f2 = .report av rows diffs eqv) :
    (∀ c, c ∈ av ↔ (c ∈ extract_variables f1 ∨ c ∈ extract_variables f2)) ∧
    List.Sorted (· < ·) av ∧
    rows.map Prod.fst = generate_truth_combinations av ∧
    (eqv = true ↔ ∀ row ∈ rows, row.2.1 = row.2.2) ∧
    (∀ i c r1 r2, (i, c, r1, r2) ∈ diffs ↔
      (rows[i]? = some (c, r1, r2) ∧ r1 ≠ r2)) ∧
    (∀ n c r1 r2, (n, c, r1, r2) ∈ displayed_differences diffs ↔
      ∃ i, n = i + 1 ∧ rows[i]? = some (c, r1, r2) ∧ r1 ≠ r2) := by
  obtain ⟨hav, results1, results2, hres1, hres2, hrows, hdiffs, heqv⟩ := fe_report_elim h
  have hlen1 : results1.length = (generate_truth_combinations av).length := by
    simpa using sequenceOpt_length _ _ hres1
  have hlen2 : results2.length = (generate_truth_combinations av).length := by
    simpa using sequenceOpt_length _ _ hres2
  have hchar : ∀ (i : Nat) (c : List (Char × Char)) (r1 r2 : Char),
      (i, c, r1, r2) ∈ diffs ↔ (rows[i]? = some (c, r1, r2) ∧ r1 ≠ r2) := by
    intro i c r1 r2
    rw [hdiffs]
    have henum : rows.enum = rows.enumFrom 0 := rfl
    rw [henum, diffs_mem rows 0 i c r1 r2]
    constructor
    · rintro ⟨j, hi, hj, hne⟩
      have : i = j := by omega
      subst this
      exact ⟨hj, hne⟩
    · rintro ⟨hj, hne⟩
      exact ⟨i, by omega, hj, hne⟩
  refine ⟨?_, ?_, ?_, ?_, hchar, ?_⟩
  · intro c
    rw [hav]
    rw [(List.perm_insertionSort _ _).mem_iff, List.mem_dedup, List.mem_append]
  · rw [hav]
    have hnd : (List.insertionSort (· ≤ ·)
        (extract_variables f1 ++ extract_variables f2).dedup).Nodup :=
      ((List.perm_insertionSort _ _).nodup_iff).mpr (List.nodup_dedup _)
    exact (List.sorted_insertionSort _ _).lt_of_le hnd
  · rw [hrows]
    apply List.map_fst_zip
    rw [List.length_zip, hlen1, hlen2]
    simp
  · rw [heqv]
    constructor
    · intro hempty row hrow
      have hnil : diffs = [] := List.isEmpty_iff.mp hempty
      obtain ⟨i, hi⟩ := List.mem_iff_getElem?.mp hrow
      by_contra hne
      have : (i, row.1, row.2.1, row.2.2) ∈ diffs := by
        rw [hchar]
        exact ⟨by simpa using hi, hne⟩
      rw [hnil] at this
      simp at this
    · intro hall
      have hnil : diffs = [] := by
        rw [List.eq_nil_iff_forall_not_mem]
        rintro ⟨i, c, r1, r2⟩ hmem
        rw [hchar] at hmem
        obtain ⟨hj, hne⟩ := hmem
        have hrowmem : (c, r1, r2) ∈ rows := List.mem_iff_getElem?.mpr ⟨i, hj⟩
        exact hne (hall _ hrowmem)
      rw [hnil]
      rfl
  · intro n c r1 r2
    unfold displayed_differences
    rw [List.mem_map]
    constructor
    · rintro ⟨⟨i, c', rr1, rr2⟩, hmem, heq⟩
      simp only [Prod.mk.injEq] at heq
      obtain ⟨h1, h2, h3, h4⟩ := heq
      subst h2
      subst h3
      subst h4
      rw [hchar] at hmem
      exact ⟨i, h1.symm, hmem.1, hmem.2⟩
    · rintro ⟨i, hn, hj, hne⟩
      refine ⟨(i, c, r1, r2), ?_, by simp [hn]⟩
      rw [hchar]
      exact ⟨hj, hne⟩

theorem formula_equivalence_spec_witness :
    (0, [('p', 'F')], 'F', 'T') ∈ [(0, [('p', 'F')], 'F', 'T'), (1, [('p', 'T')], 'T', 'F')] ↔
      ([([('p', 'F')], 'F', 'T'), ([('p', 'T')], 'T', 'F')][(0 : Nat)]? =
        some ([('p', 'F')], 'F', 'T') ∧ 'F' ≠ 'T') :=
  (formula_equivalence_spec "p".toList "¬p".toList ['p']
    [([('p', 'F')], 'F', 'T'), ([('p', 'T')], 'T', 'F')]
    [(0, [('p', 'F')], 'F', 'T'), (1, [('p', 'T')], 'T', 'F')] false
    (by decide)).2.2.2.2.1 0 [('p', 'F')] 'F' 'T'

/-! Precedence, out-of-alphabet characters, blank input. -/

/-- Counterexample to C5: under the assignment p=F, q=F, r=F the text p→q∧r
evaluates to F while p→(q∧r) evaluates to T, so an unparenthesized → does not
bind looser than ∧ (the host's <= binds tighter than its and). -/
theorem precedence_counterexample :
    evaluate_formula "p→q∧r".toList [('p', 'F'), ('q', 'F'), ('r', 'F')] = some 'F' ∧
    evaluate_formula "p→(q∧r)".toList [('p', 'F'), ('q', 'F'), ('r', 'F')] = some 'T' := by
  decide

/-- C5 amended: in unparenthesized mixtures, ¬ applies to the smallest
following subexpression among ¬/∧/∨ and ∧ binds tighter than ∨, but → and ↔
bind tighter than all three (they sit at the host's comparison precedence):
for every assignment, ¬p∧q evaluates as (¬p)∧q, p∨q∧r as p∨(q∧r), ¬p↔q as
¬(p↔q), and p→q∧r as (p→q)∧r. -/
theorem actual_precedence_spec :
    ∀ a b c : Bool,
    evaluate_formula "¬p∧q".toList
        [('p', if a then 'T' else 'F'), ('q', if b then 'T' else 'F')] =
      evaluate_formula "(¬p)∧q".toList
        [('p', if a then 'T' else 'F'), ('q', if b then 'T' else 'F')] ∧
    evaluate_formula "p∨q∧r".toList
        [('p', if a then 'T' else 'F'), ('q', if b then 'T' else 'F'),
          ('r', if c then 'T' else 'F')] =
      evaluate_formula "p∨(q∧r)".toList
        [('p', if a then 'T' else 'F'), ('q', if b then 'T' else 'F'),
          ('r', if c then 'T' else 'F')] ∧
    evaluate_formula "¬p↔q".toList
        [('p', if a then 'T' else 'F'), ('q', if b then 'T' else 'F')] =
      evaluate_formula "¬(p↔q)".toList
        [('p', if a then 'T' else 'F'), ('q', if b then 'T' else 'F')] ∧
    evaluate_formula "p→q∧r".toList
        [('p', if a then 'T' else 'F'), ('q', if b then 'T' else 'F'),
          ('r', if c then 'T' else 'F')] =
      evaluate_formula "(p→q)∧r".toList
        [('p', if a then 'T' else 'F'), ('q', if b then 'T' else 'F'),
          ('r', if c then 'T' else 'F')] := by
  decide

/-- Counterexample to C6: the input p∧1 contains the character 1, outside the
recognized alphabet, yet the operation produces a truth table instead of
failing with a parse error. -/
theorem nonalphabet_char_counterexample :
    truth_table_generator "p∧1".toList =
      .table [([('p', 'F')], 'F'), ([('p', 'T')], 'T')] .contingent := by
  decide

/-- C6 amended: a character outside the alphabet is not rejected as such; the
operation fails only when the substituted text is not a valid expression of
the host evaluator (p∧1 tabulates successfully, while p∧x fails with an
evaluation error, not an upfront parse error). -/
theorem nonalphabet_char_behavior :
    truth_table_generator "p∧1".toList =
      .table [([('p', 'F')], 'F'), ([('p', 'T')], 'T')] .contingent ∧
    truth_table_generator "p∧x".toList = .evalError := by
  decide

/-- Counterexample to C7: truly blank input produces no outcome at all (the
view returns before computing anything, no error is surfaced), and
whitespace-only input is reported with the very same no-valid-variables error
as any other variable-free input such as xyz — not a distinct empty-formula
error. -/
theorem blank_whitespace_counterexample :
    truth_table_generator "".toList = .skipped ∧
    truth_table_generator " ".toList = .noVariables ∧
    truth_table_generator "xyz".toList = .noVariables := by
  decide

/-- C7 amended: blank input is silently skipped with no error; nonempty
whitespace-only input fails with the no-variables error, the same error kind
as any formula without variables. -/
theorem blank_whitespace_behavior :
    truth_table_generator [] = .skipped ∧
    (∀ s : List Char, s ≠ [] → (∀ c ∈ s, c.isWhitespace = true) →
      truth_table_generator s = .noVariables) := by
  constructor
  · decide
  · intro s hne hws
    have hfilter : s.filter (fun c => decide (c ∈ varChars)) = [] := by
      rw [List.filter_eq_nil_iff]
      intro c hc
      simp only [decide_eq_true_eq]
      intro hcv
      have hw := hws c hc
      fin_cases hcv <;> exact absurd hw (by decide)
    have hvars : extract_variables s = [] := by
      unfold extract_variables
      rw [hfilter]
      rfl
    unfold truth_table_generator
    rw [if_neg (by simpa using hne)]
    rw [hvars]
    rfl

theorem blank_whitespace_behavior_witness :
    truth_table_generator [' '] = .noVariables :=
  blank_whitespace_behavior.2 [' '] (by decide) (by decide)

/-! Negation by wrapping the text in ¬( ... ). -/

/-- The formula alphabet recognized by the application's input format. -/
def formulaAlphabet : List Char :=
  ['p', 'q', 'r', 's', '¬', '∧', '∨', '→', '↔', '(', ')', ' ']

/-- Classification of the negated formula. -/
def negCls : Classification → Classification
  | .tautology => .contradiction
  | .contradiction => .tautology
  | .contingent => .contingent

/-- Substitution passes through the ¬( ... ) wrapper. -/
theorem substituteVars_negwrap (tv : List (Char × Char))
    (hkeys : ∀ x ∈ tv, x.1 ∈ varChars) (f : List Char) :
    substituteVars tv ('¬' :: '(' :: (f ++ [')'])) =
      '¬' :: '(' :: (substituteVars tv f ++ [')']) := by
  induction tv generalizing f with
  | nil => rfl
  | cons x tv ih =>
    simp only [substituteVars, List.foldl_cons]
    have hx : x.1 = 'p' ∨ x.1 = 'q' ∨ x.1 = 'r' ∨ x.1 = 's' := by
      simpa [varChars] using hkeys x (by simp)
    have h1 : ¬('¬' = x.1) := by rcases hx with h | h | h | h <;> simp [h]
    have h2 : ¬('(' = x.1) := by rcases hx with h | h | h | h <;> simp [h]
    have h3 : x.1 ≠ ')' := by rcases hx with h | h | h | h <;> simp [h]
    have hstep : reSub x.1 (boolText x.2) none ('¬' :: '(' :: (f ++ [')'])) =
        '¬' :: '(' :: (reSub x.1 (boolText x.2) none f ++ [')']) := by
      simp only [reSub, decide_eq_false h1, decide_eq_false h2,
        Bool.false_and, Bool.and_false, Bool.false_eq_true, if_false]
      rw [reSub_append_nonword x.1 _ ')' (by decide) h3]
      rw [reSub_prev_congr x.1 (boolText x.2) f (some '(') none (by decide)]
    rw [hstep]
    exact ih (fun y hy => hkeys y (by simp [hy])) _

theorem replaceChar_append (c : Char) (rep : List Char) (s t : List Char) :
    replaceChar c rep (s ++ t) = replaceChar c rep s ++ replaceChar c rep t := by
  simp [replaceChar]

theorem replaceConnectives_append (s t : List Char) :
    replaceConnectives (s ++ t) = replaceConnectives s ++ replaceConnectives t := by
  simp [replaceConnectives, replaceChar_append]

/-- Connective rewriting passes through the ¬( ... ) wrapper. -/
theorem replaceConnectives_negwrap (f : List Char) :
    replaceConnectives ('¬' :: '(' :: (f ++ [')'])) =
      'n' :: 'o' :: 't' :: ' ' :: '(' :: (replaceConnectives f ++ [')']) := by
  have hsplit : ('¬' :: '(' :: (f ++ [')'])) = ['¬', '('] ++ f ++ [')'] := by simp
  rw [hsplit, replaceConnectives_append, replaceConnectives_append]
  have h1 : replaceConnectives ['¬', '('] = ['n', 'o', 't', ' ', '('] := by decide
  have h2 : replaceConnectives [')'] = [')'] := by decide
  rw [h1, h2]
  simp

theorem tokenizeF_nil (f : Nat) : tokenizeF f [] = [] := by
  cases f <;> rfl

theorem takeWhile_append_nonword (p : Char → Bool) (c : Char) (hc : p c = false) :
    ∀ s : List Char, (s ++ [c]).takeWhile p = s.takeWhile p ∧
      (s ++ [c]).dropWhile p = s.dropWhile p ++ [c] := by
  intro s
  induction s with
  | nil => simp [List.takeWhile, List.dropWhile, hc]
  | cons d s ih =>
    by_cases hd : p d
    · simp only [List.cons_append, List.takeWhile_cons, List.dropWhile_cons, hd]
      simp [ih]
    · simp only [List.cons_append, List.takeWhile_cons, List.dropWhile_cons,
        Bool.not_eq_true] at *
      simp [hd]

/-- Appending a closing parenthesis appends a closing-parenthesis token. -/
theorem tokenizeF_append_rp (fuel : Nat) : ∀ t : List Char, t.length + 1 ≤ fuel →
    tokenizeF fuel (t ++ [')']) = tokenizeF fuel t ++ [Tok.RP] := by
  induction fuel with
  | zero => intro t h; omega
  | succ fuel ih =>
    intro t h
    cases t with
    | nil => simp [tokenizeF, tokenizeF_nil]
    | cons c rest =>
      have hlen : rest.length + 1 ≤ fuel := by
        simp only [List.length_cons] at h
        omega
      have hrp1 : tokenizeF fuel (rest ++ [')']) = tokenizeF fuel rest ++ [Tok.RP] :=
        ih rest hlen
      simp only [List.cons_append, tokenizeF, List.append_eq, List.nil_append]
      by_cases hsp : c = ' '
      · simp only [if_pos hsp]
        exact hrp1
      · simp only [if_neg hsp]
        by_cases hlp : c = '('
        · simp only [if_pos hlp, hrp1, List.cons_append]
        · simp only [if_neg hlp]
          by_cases hrp : c = ')'
          · simp only [if_pos hrp, hrp1, List.cons_append]
          · simp only [if_neg hrp]
            by_cases hlt : c = '<'
            · simp only [if_pos hlt]
              cases rest with
              | nil =>
                rw [if_neg (by simp), if_neg (by simp)]
                have h0 := ih [] (by omega)
                simp only [List.nil_append, tokenizeF_nil] at h0
                simp [h0, tokenizeF_nil]
              | cons d r =>
                by_cases hd : d = '='
                · subst hd
                  rw [if_pos (by simp), if_pos (by simp)]
                  simp only [List.cons_append, List.tail_cons]
                  rw [ih r (by simp only [List.length_cons] at hlen; omega)]
                · rw [if_neg (by simp [hd]), if_neg (by simp [hd])]
                  simp only [List.cons_append] at hrp1
                  simp [hrp1]
            · simp only [if_neg hlt]
              by_cases heq : c = '='
              · simp only [if_pos heq]
                cases rest with
                | nil =>
                  rw [if_neg (by simp), if_neg (by simp)]
                  have h0 := ih [] (by omega)
                  simp only [List.nil_append, tokenizeF_nil] at h0
                  simp [h0, tokenizeF_nil]
                | cons d r =>
                  by_cases hd : d = '='
                  · subst hd
                    rw [if_pos (by simp), if_pos (by simp)]
                    simp only [List.cons_append, List.tail_cons]
                    rw [ih r (by simp only [List.length_cons] at hlen; omega)]
                  · rw [if_neg (by simp [hd]), if_neg (by simp [hd])]
                    simp only [List.cons_append] at hrp1
                    simp [hrp1]
              · simp only [if_neg heq]
                by_cases hw : isWordChar c
                · simp only [hw, if_true]
                  obtain ⟨htw, hdw⟩ := takeWhile_append_nonword isWordChar ')' (by decide) rest
                  rw [htw, hdw]
                  rw [ih (rest.dropWhile isWordChar)
                    (by have := length_dropWhile_le isWordChar rest; omega)]
                  simp
                · simp only [hw, Bool.false_eq_true, if_false, hrp1, List.cons_append]

theorem tokenize_append_rp (t : List Char) :
    tokenize (t ++ [')']) = tokenize t ++ [Tok.RP] := by
  unfold tokenize
  have h1 : (t ++ [')']).length = t.length + 1 := by simp
  rw [h1]
  rw [tokenizeF_append_rp (t.length + 1) t (by omega)]
  rw [tokenizeF_fuel (t.length + 1) t.length t (by omega) (by omega)]

/-- Tokenizing the rewritten prefix `not (`. -/
theorem tokenize_notparen (X : List Char) :
    tokenize ('n' :: 'o' :: 't' :: ' ' :: '(' :: X) = Tok.NOT :: Tok.LP :: tokenize X := by
  have h1 : tokenize ('n' :: 'o' :: 't' :: ' ' :: '(' :: X) =
      Tok.NOT :: Tok.LP :: tokenizeF (X.length + 2) X := rfl
  rw [h1, tokenizeF_fuel (X.length + 2) X.length X (by omega) (by omega)]
  rfl

/-! Step equations for the fueled parser, all definitional. -/

theorem parseLvl_true (f : Nat) (r : List Tok) :
    parseLvl (f + 1) 0 (Tok.TRUE :: r) = some (1, r) := rfl

theorem parseLvl_false (f : Nat) (r : List Tok) :
    parseLvl (f + 1) 0 (Tok.FALSE :: r) = some (0, r) := rfl

theorem parseLvl_num (f n : Nat) (r : List Tok) :
    parseLvl (f + 1) 0 (Tok.NUM n :: r) = some ((n : Int), r) := rfl

theorem parseLvl_lp (f : Nat) (r : List Tok) :
    parseLvl (f + 1) 0 (Tok.LP :: r) =
      (match parseLvl f 4 r with
       | some (v, Tok.RP :: r2) => some (v, r2)
       | _ => none) := rfl

theorem parseLvl_one (f : Nat) (toks : List Tok) :
    parseLvl (f + 1) 1 toks =
      (match parseLvl f 0 toks with
       | some (a, r) => cmpRest f a r
       | none => none) := rfl

theorem parseLvl_two_not (f : Nat) (r : List Tok) :
    parseLvl (f + 1) 2 (Tok.NOT :: r) =
      (match parseLvl f 2 r with
       | some (v, r2) => some (pyNot v, r2)
       | none => none) := rfl

theorem parseLvl_three (f : Nat) (toks : List Tok) :
    parseLvl (f + 1) 3 toks =
      (match parseLvl f 2 toks with
       | some (a, r) => andRest f a r
       | none => none) := rfl

theorem parseLvl_four (f : Nat) (toks : List Tok) :
    parseLvl (f + 1) 4 toks =
      (match parseLvl f 3 toks with
       | some (a, r) => orRest f a r
       | none => none) := rfl

theorem cmpRest_le (f : Nat) (a : Int) (r : List Tok) :
    cmpRest (f + 1) a (Tok.LE :: r) =
      (match parseLvl f 0 r with
       | some (b, r2) => cmpChain f (pyLE a b) b r2
       | none => none) := rfl

theorem cmpRest_eq2 (f : Nat) (a : Int) (r : List Tok) :
    cmpRest (f + 1) a (Tok.EQ :: r) =
      (match parseLvl f 0 r with
       | some (b, r2) => cmpChain f (pyEQ a b) b r2
       | none => none) := rfl

theorem cmpChain_le (f : Nat) (acc : Bool) (prev : Int) (r : List Tok) :
    cmpChain (f + 1) acc prev (Tok.LE :: r) =
      (match parseLvl f 0 r with
       | some (b, r2) => cmpChain f (acc && pyLE prev b) b r2
       | none => none) := rfl

theorem cmpChain_eq2 (f : Nat) (acc : Bool) (prev : Int) (r : List Tok) :
    cmpChain (f + 1) acc prev (Tok.EQ :: r) =
      (match parseLvl f 0 r with
       | some (b, r2) => cmpChain f (acc && pyEQ prev b) b r2
       | none => none) := rfl

theorem andRest_and (f : Nat) (a : Int) (r : List Tok) :
    andRest (f + 1) a (Tok.AND :: r) =
      (match parseLvl f 2 r with
       | some (b, r2) => andRest f (pyAnd a b) r2
       | none => none) := rfl

theorem orRest_or (f : Nat) (a : Int) (r : List Tok) :
    orRest (f + 1) a (Tok.OR :: r) =
      (match parseLvl f 3 r with
       | some (b, r2) => orRest f (pyOr a b) r2
       | none => none) := rfl

/-- Parser success is preserved when the fuel grows. -/
theorem parse_mono (f1 : Nat) : ∀ (f2 : Nat), f1 ≤ f2 →
    (∀ lvl toks x, parseLvl f1 lvl toks = some x → parseLvl f2 lvl toks = some x) ∧
    (∀ a toks x, cmpRest f1 a toks = some x → cmpRest f2 a toks = some x) ∧
    (∀ acc prev toks x, cmpChain f1 acc prev toks = some x →
      cmpChain f2 acc prev toks = some x) ∧
    (∀ a toks x, andRest f1 a toks = some x → andRest f2 a toks = some x) ∧
    (∀ a toks x, orRest f1 a toks = some x → orRest f2 a toks = some x) := by
  induction f1 with
  | zero =>
    intro f2 _
    exact ⟨fun lvl toks x h => Option.noConfusion h,
      fun a toks x h => Option.noConfusion h,
      fun acc prev toks x h => Option.noConfusion h,
      fun a toks x h => Option.noConfusion h,
      fun a toks x h => Option.noConfusion h⟩
  | succ f1 ih =>
    intro f2 hle
    obtain ⟨g, rfl⟩ : ∃ g, f2 = g + 1 := ⟨f2 - 1, by omega⟩
    obtain ⟨ihP, ihCR, ihCC, ihA, ihO⟩ := ih g (by omega)
    refine ⟨?_, ?_, ?_, ?_, ?_⟩
    · intro lvl toks x h
      rcases lvl with _ | _ | _ | _ | _ | lvl
      · cases toks with
        | nil => exact Option.noConfusion h
        | cons t r =>
          cases t with
          | LP =>
            rw [parseLvl_lp] at h
            rw [parseLvl_lp]
            cases hrec : parseLvl f1 4 r with
            | none => rw [hrec] at h; exact Option.noConfusion h
            | some vr =>
              obtain ⟨v, r2⟩ := vr
              rw [hrec] at h
              rw [ihP 4 r (v, r2) hrec]
              cases r2 with
              | nil => exact Option.noConfusion h
              | cons t0 r2 =>
                cases t0 <;> first | exact h | exact Option.noConfusion h
          | TRUE => exact h
          | FALSE => exact h
          | NUM n => exact h
          | NOT => exact Option.noConfusion h
          | AND => exact Option.noConfusion h
          | OR => exact Option.noConfusion h
          | LE => exact Option.noConfusion h
          | EQ => exact Option.noConfusion h
          | RP => exact Option.noConfusion h
          | ERR => exact Option.noConfusion h
      · rw [parseLvl_one] at h
        rw [parseLvl_one]
        cases hrec : parseLvl f1 0 toks with
        | none => rw [hrec] at h; exact Option.noConfusion h
        | some ar =>
          obtain ⟨a, r⟩ := ar
          rw [hrec] at h
          rw [ihP 0 toks (a, r) hrec]
          exact ihCR a r x h
      · cases toks with
        | nil => exact ihP 1 [] x h
        | cons t r =>
          cases t with
          | NOT =>
            rw [parseLvl_two_not] at h
            rw [parseLvl_two_not]
            cases hrec : parseLvl f1 2 r with
            | none => rw [hrec] at h; exact Option.noConfusion h
            | some vr =>
              obtain ⟨v, r2⟩ := vr
              rw [hrec] at h
              rw [ihP 2 r (v, r2) hrec]
              exact h
          | TRUE => exact ihP 1 _ x h
          | FALSE => exact ihP 1 _ x h
          | NUM n => exact ihP 1 _ x h
          | AND => exact ihP 1 _ x h
          | OR => exact ihP 1 _ x h
          | LE => exact ihP 1 _ x h
          | EQ => exact ihP 1 _ x h
          | LP => exact ihP 1 _ x h
          | RP => exact ihP 1 _ x h
          | ERR => exact ihP 1 _ x h
      · rw [parseLvl_three] at h
        rw [parseLvl_three]
        cases hrec : parseLvl f1 2 toks with
        | none => rw [hrec] at h; exact Option.noConfusion h
        | some ar =>
          obtain ⟨a, r⟩ := ar
          rw [hrec] at h
          rw [ihP 2 toks (a, r) hrec]
          exact ihA a r x h
      · rw [parseLvl_four] at h
        rw [parseLvl_four]
        cases hrec : parseLvl f1 3 toks with
        | none => rw [hrec] at h; exact Option.noConfusion h
        | some ar =>
          obtain ⟨a, r⟩ := ar
          rw [hrec] at h
          rw [ihP 3 toks (a, r) hrec]
          exact ihO a r x h
      · exact Option.noConfusion h
    · intro a toks x h
      cases toks with
      | nil => exact h
      | cons t r =>
        cases t with
        | LE =>
          rw [cmpRest_le] at h
          rw [cmpRest_le]
          cases hrec : parseLvl f1 0 r with
          | none => rw [hrec] at h; exact Option.noConfusion h
          | some br =>
            obtain ⟨b, r2⟩ := br
            rw [hrec] at h
            rw [ihP 0 r (b, r2) hrec]
            exact ihCC _ _ _ x h
        | EQ =>
          rw [cmpRest_eq2] at h
          rw [cmpRest_eq2]
          cases hrec : parseLvl f1 0 r with
          | none => rw [hrec] at h; exact Option.noConfusion h
          | some br =>
            obtain ⟨b, r2⟩ := br
            rw [hrec] at h
            rw [ihP 0 r (b, r2) hrec]
            exact ihCC _ _ _ x h
        | TRUE => exact h
        | FALSE => exact h
        | NUM n => exact h
        | NOT => exact h
        | AND => exact h
        | OR => exact h
        | LP => exact h
        | RP => exact h
        | ERR => exact h
    · intro acc prev toks x h
      cases toks with
      | nil => exact h
      | cons t r =>
        cases t with
        | LE =>
          rw [cmpChain_le] at h
          rw [cmpChain_le]
          cases hrec : parseLvl f1 0 r with
          | none => rw [hrec] at h; exact Option.noConfusion h
          | some br =>
            obtain ⟨b, r2⟩ := br
            rw [hrec] at h
            rw [ihP 0 r (b, r2) hrec]
            exact ihCC _ _ _ x h
        | EQ =>
          rw [cmpChain_eq2] at h
          rw [cmpChain_eq2]
          cases hrec : parseLvl f1 0 r with
          | none => rw [hrec] at h; exact Option.noConfusion h
          | some br =>
            obtain ⟨b, r2⟩ := br
            rw [hrec] at h
            rw [ihP 0 r (b, r2) hrec]
            exact ihCC _ _ _ x h
        | TRUE => exact h
        | FALSE => exact h
        | NUM n => exact h
        | NOT => exact h
        | AND => exact h
        | OR => exact h
        | LP => exact h
        | RP => exact h
        | ERR => exact h
    · intro a toks x h
      cases toks with
      | nil => exact h
      | cons t r =>
        cases t with
        | AND =>
          rw [andRest_and] at h
          rw [andRest_and]
          cases hrec : parseLvl f1 2 r with
          | none => rw [hrec] at h; exact Option.noConfusion h
          | some br =>
            obtain ⟨b, r2⟩ := br
            rw [hrec] at h
            rw [ihP 2 r (b, r2) hrec]
            exact ihA _ _ x h
        | TRUE => exact h
        | FALSE => exact h
        | NUM n => exact h
        | NOT => exact h
        | OR => exact h
        | LE => exact h
        | EQ => exact h
        | LP => exact h
        | RP => exact h
        | ERR => exact h
    · intro a toks x h
      cases toks with
      | nil => exact h
      | cons t r =>
        cases t with
        | OR =>
          rw [orRest_or] at h
          rw [orRest_or]
          cases hrec : parseLvl f1 3 r with
          | none => rw [hrec] at h; exact Option.noConfusion h
          | some br =>
            obtain ⟨b, r2⟩ := br
            rw [hrec] at h
            rw [ihP 3 r (b, r2) hrec]
            exact ihO _ _ x h
        | TRUE => exact h
        | FALSE => exact h
        | NUM n => exact h
        | NOT => exact h
        | AND => exact h
        | LE => exact h
        | EQ => exact h
        | LP => exact h
        | RP => exact h
        | ERR => exact h

theorem parseLvl_two_other (f : Nat) (toks : List Tok)
    (h : toks.head? ≠ some Tok.NOT) :
    parseLvl (f + 1) 2 toks = parseLvl f 1 toks := by
  cases toks with
  | nil => rfl
  | cons t r => cases t <;> first | rfl | exact absurd rfl h

theorem cmpRest_exit (f : Nat) (a : Int) (toks : List Tok)
    (h1 : toks.head? ≠ some Tok.LE) (h2 : toks.head? ≠ some Tok.EQ) :
    cmpRest (f + 1) a toks = some (a, toks) := by
  cases toks with
  | nil => rfl
  | cons t r => cases t <;> first | rfl | exact absurd rfl h1 | exact absurd rfl h2

theorem cmpChain_exit (f : Nat) (acc : Bool) (prev : Int) (toks : List Tok)
    (h1 : toks.head? ≠ some Tok.LE) (h2 : toks.head? ≠ some Tok.EQ) :
    cmpChain (f + 1) acc prev toks = some (boolInt acc, toks) := by
  cases toks with
  | nil => rfl
  | cons t r => cases t <;> first | rfl | exact absurd rfl h1 | exact absurd rfl h2

theorem andRest_exit (f : Nat) (a : Int) (toks : List Tok)
    (h1 : toks.head? ≠ some Tok.AND) :
    andRest (f + 1) a toks = some (a, toks) := by
  cases toks with
  | nil => rfl
  | cons t r => cases t <;> first | rfl | exact absurd rfl h1

theorem orRest_exit (f : Nat) (a : Int) (toks : List Tok)
    (h1 : toks.head? ≠ some Tok.OR) :
    orRest (f + 1) a toks = some (a, toks) := by
  cases toks with
  | nil => rfl
  | cons t r => cases t <;> first | rfl | exact absurd rfl h1

/-- Appending a closing-parenthesis token extends every successful parse: the
appended token only stops the parsing loops, exactly as the end of the input
does. -/
theorem parse_append_rp (f : Nat) :
    (∀ lvl toks v r, parseLvl f lvl toks = some (v, r) →
      parseLvl f lvl (toks ++ [Tok.RP]) = some (v, r ++ [Tok.RP])) ∧
    (∀ a toks v r, cmpRest f a toks = some (v, r) →
      cmpRest f a (toks ++ [Tok.RP]) = some (v, r ++ [Tok.RP])) ∧
    (∀ acc prev toks v r, cmpChain f acc prev toks = some (v, r) →
      cmpChain f acc prev (toks ++ [Tok.RP]) = some (v, r ++ [Tok.RP])) ∧
    (∀ a toks v r, andRest f a toks = some (v, r) →
      andRest f a (toks ++ [Tok.RP]) = some (v, r ++ [Tok.RP])) ∧
    (∀ a toks v r, orRest f a toks = some (v, r) →
      orRest f a (toks ++ [Tok.RP]) = some (v, r ++ [Tok.RP])) := by
  induction f with
  | zero =>
    exact ⟨fun _ _ _ _ h => Option.noConfusion h,
      fun _ _ _ _ h => Option.noConfusion h,
      fun _ _ _ _ _ h => Option.noConfusion h,
      fun _ _ _ _ h => Option.noConfusion h,
      fun _ _ _ _ h => Option.noConfusion h⟩
  | succ f ih =>
    obtain ⟨ihP, ihCR, ihCC, ihA, ihO⟩ := ih
    refine ⟨?_, ?_, ?_, ?_, ?_⟩
    · intro lvl toks v r h
      rcases lvl with _ | _ | _ | _ | _ | lvl
      · cases toks with
        | nil => exact Option.noConfusion h
        | cons t r0 =>
          cases t with
          | LP =>
            rw [parseLvl_lp] at h
            rw [List.cons_append, parseLvl_lp]
            cases hrec : parseLvl f 4 r0 with
            | none => rw [hrec] at h; exact Option.noConfusion h
            | some vr =>
              obtain ⟨v0, r2⟩ := vr
              rw [hrec] at h
              cases r2 with
              | nil => exact Option.noConfusion h
              | cons t0 r3 =>
                cases t0 with
                | RP =>
                  cases h
                  have happ := ihP 4 r0 v (Tok.RP :: r) hrec
                  rw [List.cons_append] at happ
                  rw [happ]
                | TRUE => exact Option.noConfusion h
                | FALSE => exact Option.noConfusion h
                | NUM n => exact Option.noConfusion h
                | NOT => exact Option.noConfusion h
                | AND => exact Option.noConfusion h
                | OR => exact Option.noConfusion h
                | LE => exact Option.noConfusion h
                | EQ => exact Option.noConfusion h
                | LP => exact Option.noConfusion h
                | ERR => exact Option.noConfusion h
          | TRUE =>
            rw [parseLvl_true] at h
            cases h
            rw [List.cons_append, parseLvl_true]
          | FALSE =>
            rw [parseLvl_false] at h
            cases h
            rw [List.cons_append, parseLvl_false]
          | NUM n =>
            rw [parseLvl_num] at h
            cases h
            rw [List.cons_append, parseLvl_num]
          | NOT => exact Option.noConfusion h
          | AND => exact Option.noConfusion h
          | OR => exact Option.noConfusion h
          | LE => exact Option.noConfusion h
          | EQ => exact Option.noConfusion h
          | RP => exact Option.noConfusion h
          | ERR => exact Option.noConfusion h
      · rw [parseLvl_one] at h
        rw [parseLvl_one]
        cases hrec : parseLvl f 0 toks with
        | none => rw [hrec] at h; exact Option.noConfusion h
        | some ar =>
          obtain ⟨a, r0⟩ := ar
          rw [hrec] at h
          rw [ihP 0 toks a r0 hrec]
          exact ihCR a r0 v r h
      · by_cases hnot : toks.head? = some Tok.NOT
        · obtain ⟨r0, rfl⟩ : ∃ r0, toks = Tok.NOT :: r0 := by
            cases toks with
            | nil => simp at hnot
            | cons t r0 =>
              simp only [List.head?_cons, Option.some_inj] at hnot
              exact ⟨r0, by rw [hnot]⟩
          rw [parseLvl_two_not] at h
          rw [List.cons_append, parseLvl_two_not]
          cases hrec : parseLvl f 2 r0 with
          | none => rw [hrec] at h; exact Option.noConfusion h
          | some vr =>
            obtain ⟨v0, r2⟩ := vr
            rw [hrec] at h
            cases h
            rw [ihP 2 r0 v0 r hrec]
        · rw [parseLvl_two_other f toks hnot] at h
          rw [parseLvl_two_other f (toks ++ [Tok.RP])
            (by cases toks with
                | nil => simp
                | cons t r0 => simpa using hnot)]
          exact ihP 1 toks v r h
      · rw [parseLvl_three] at h
        rw [parseLvl_three]
        cases hrec : parseLvl f 2 toks with
        | none => rw [hrec] at h; exact Option.noConfusion h
        | some ar =>
          obtain ⟨a, r0⟩ := ar
          rw [hrec] at h
          rw [ihP 2 toks a r0 hrec]
          exact ihA a r0 v r h
      · rw [parseLvl_four] at h
        rw [parseLvl_four]
        cases hrec : parseLvl f 3 toks with
        | none => rw [hrec] at h; exact Option.noConfusion h
        | some ar =>
          obtain ⟨a, r0⟩ := ar
          rw [hrec] at h
          rw [ihP 3 toks a r0 hrec]
          exact ihO a r0 v r h
      · exact Option.noConfusion h
    · intro a toks v r h
      cases toks with
      | nil =>
        rw [cmpRest_exit f a [] (by simp) (by simp)] at h
        cases h
        rw [cmpRest_exit f a ([] ++ [Tok.RP]) (by simp) (by simp)]
      | cons t r0 =>
        by_cases hle : t = Tok.LE
        · subst hle
          rw [cmpRest_le] at h
          rw [List.cons_append, cmpRest_le]
          cases hrec : parseLvl f 0 r0 with
          | none => rw [hrec] at h; exact Option.noConfusion h
          | some br =>
            obtain ⟨b, r2⟩ := br
            rw [hrec] at h
            rw [ihP 0 r0 b r2 hrec]
            exact ihCC (pyLE a b) b r2 v r h
        · by_cases heq : t = Tok.EQ
          · subst heq
            rw [cmpRest_eq2] at h
            rw [List.cons_append, cmpRest_eq2]
            cases hrec : parseLvl f 0 r0 with
            | none => rw [hrec] at h; exact Option.noConfusion h
            | some br =>
              obtain ⟨b, r2⟩ := br
              rw [hrec] at h
              rw [ihP 0 r0 b r2 hrec]
              exact ihCC (pyEQ a b) b r2 v r h
          · rw [cmpRest_exit f a (t :: r0) (by simp [hle]) (by simp [heq])] at h
            cases h
            rw [List.cons_append,
              cmpRest_exit f a (t :: (r0 ++ [Tok.RP])) (by simp [hle]) (by simp [heq])]
    · intro acc prev toks v r h
      cases toks with
      | nil =>
        rw [cmpChain_exit f acc prev [] (by simp) (by simp)] at h
        cases h
        rw [cmpChain_exit f acc prev ([] ++ [Tok.RP]) (by simp) (by simp)]
      | cons t r0 =>
        by_cases hle : t = Tok.LE
        · subst hle
          rw [cmpChain_le] at h
          rw [List.cons_append, cmpChain_le]
          cases hrec : parseLvl f 0 r0 with
          | none => rw [hrec] at h; exact Option.noConfusion h
          | some br =>
            obtain ⟨b, r2⟩ := br
            rw [hrec] at h
            rw [ihP 0 r0 b r2 hrec]
            exact ihCC (acc && pyLE prev b) b r2 v r h
        · by_cases heq : t = Tok.EQ
          · subst heq
            rw [cmpChain_eq2] at h
            rw [List.cons_append, cmpChain_eq2]
            cases hrec : parseLvl f 0 r0 with
            | none => rw [hrec] at h; exact Option.noConfusion h
            | some br =>
              obtain ⟨b, r2⟩ := br
              rw [hrec] at h
              rw [ihP 0 r0 b r2 hrec]
              exact ihCC (acc && pyEQ prev b) b r2 v r h
          · rw [cmpChain_exit f acc prev (t :: r0) (by simp [hle]) (by simp [heq])] at h
            cases h
            rw [List.cons_append,
              cmpChain_exit f acc prev (t :: (r0 ++ [Tok.RP]))
                (by simp [hle]) (by simp [heq])]
    · intro a toks v r h
      cases toks with
      | nil =>
        rw [andRest_exit f a [] (by simp)] at h
        cases h
        rw [andRest_exit f a ([] ++ [Tok.RP]) (by simp)]
      | cons t r0 =>
        by_cases hand : t = Tok.AND
        · subst hand
          rw [andRest_and] at h
          rw [List.cons_append, andRest_and]
          cases hrec : parseLvl f 2 r0 with
          | none => rw [hrec] at h; exact Option.noConfusion h
          | some br =>
            obtain ⟨b, r2⟩ := br
            rw [hrec] at h
            rw [ihP 2 r0 b r2 hrec]
            exact ihA (pyAnd a b) r2 v r h
        · rw [andRest_exit f a (t :: r0) (by simp [hand])] at h
          cases h
          rw [List.cons_append, andRest_exit f a (t :: (r0 ++ [Tok.RP])) (by simp [hand])]
    · intro a toks v r h
      cases toks with
      | nil =>
        rw [orRest_exit f a [] (by simp)] at h
        cases h
        rw [orRest_exit f a ([] ++ [Tok.RP]) (by simp)]
      | cons t r0 =>
        by_cases hor : t = Tok.OR
        · subst hor
          rw [orRest_or] at h
          rw [List.cons_append, orRest_or]
          cases hrec : parseLvl f 3 r0 with
          | none => rw [hrec] at h; exact Option.noConfusion h
          | some br =>
            obtain ⟨b, r2⟩ := br
            rw [hrec] at h
            rw [ihP 3 r0 b r2 hrec]
            exact ihO (pyOr a b) r2 v r h
        · rw [orRest_exit f a (t :: r0) (by simp [hor])] at h
          cases h
          rw [List.cons_append, orRest_exit f a (t :: (r0 ++ [Tok.RP])) (by simp [hor])]

/-- Parsing `not ( t )` when `t` parses completely. -/
theorem parseLvl_notparen (f : Nat) (t : List Tok) (v : Int)
    (h : parseLvl f 4 t = some (v, [])) :
    ∀ g, f + 6 ≤ g → parseLvl g 4 (Tok.NOT :: Tok.LP :: (t ++ [Tok.RP])) =
      some (pyNot v, []) := by
  intro g hg
  obtain ⟨k, rfl⟩ : ∃ k, g = k + 6 := ⟨g - 6, by omega⟩
  have hk : f ≤ k := by omega
  have happ : parseLvl k 4 (t ++ [Tok.RP]) = some (v, [Tok.RP]) := by
    have h1 := (parse_append_rp f).1 4 t v [] h
    exact (parse_mono f k hk).1 4 (t ++ [Tok.RP]) (v, [Tok.RP]) h1
  rw [show k + 6 = k + 5 + 1 by omega, parseLvl_four,
    show k + 5 = k + 4 + 1 by omega, parseLvl_three,
    show k + 4 = k + 3 + 1 by omega, parseLvl_two_not,
    show k + 3 = k + 2 + 1 by omega,
    parseLvl_two_other (k + 2) (Tok.LP :: (t ++ [Tok.RP])) (by simp),
    show k + 2 = k + 1 + 1 by omega, parseLvl_one, parseLvl_lp, happ]
  rfl

/-- The host evaluation of `not ( t )` negates the evaluation of `t`. -/
theorem pyEval_notparen (t : List Tok) (v : Int) (h : pyEval t = some v) :
    pyEval (Tok.NOT :: Tok.LP :: (t ++ [Tok.RP])) = some (pyNot v) := by
  unfold pyEval at h ⊢
  cases hp : parseLvl (10 * t.length + 10) 4 t with
  | none => rw [hp] at h; exact Option.noConfusion h
  | some vr =>
    obtain ⟨v0, r0⟩ := vr
    rw [hp] at h
    cases r0 with
    | cons _ _ => exact Option.noConfusion h
    | nil =>
      have h' : some v0 = some v := h
      cases h'
      have hbig := parseLvl_notparen (10 * t.length + 10) t v hp
        (10 * (Tok.NOT :: Tok.LP :: (t ++ [Tok.RP])).length + 10)
        (by simp; omega)
      rw [hbig]

/-- The evaluator only ever reports T or F. -/
theorem evaluate_formula_TF {f : List Char} {tv : List (Char × Char)} {r : Char}
    (h : evaluate_formula f tv = some r) : r = 'T' ∨ r = 'F' := by
  unfold evaluate_formula at h
  cases hp : pyEval (tokenize (replaceConnectives (substituteVars tv f))) with
  | none => rw [hp] at h; exact Option.noConfusion h
  | some v =>
    rw [hp] at h
    have h' : some (if v = 0 then 'F' else 'T') = some r := h
    cases h'
    by_cases hv : v = 0
    · right; rw [if_pos hv]
    · left; rw [if_neg hv]

/-- Wrapping the text as ¬( ... ) flips any successful evaluation. -/
theorem evaluate_formula_negwrap (f : List Char) (tv : List (Char × Char))
    (hkeys : ∀ x ∈ tv, x.1 ∈ varChars) (r : Char)
    (h : evaluate_formula f tv = some r) :
    evaluate_formula ('¬' :: '(' :: (f ++ [')'])) tv = some (flipTF r) := by
  unfold evaluate_formula at h ⊢
  rw [substituteVars_negwrap tv hkeys f, replaceConnectives_negwrap,
    tokenize_notparen, tokenize_append_rp]
  cases hp : pyEval (tokenize (replaceConnectives (substituteVars tv f))) with
  | none => rw [hp] at h; exact Option.noConfusion h
  | some v =>
    rw [hp] at h
    rw [pyEval_notparen _ v hp]
    have h' : some (if v = 0 then 'F' else 'T') = some r := h
    cases h'
    by_cases hv : v = 0
    · simp [pyNot, hv, flipTF]
    · simp [pyNot, hv, flipTF]

theorem sequenceOpt_cons_some {α : Type} (a : α) (l : List (Option α)) :
    sequenceOpt (some a :: l) = (sequenceOpt l).map (fun r => a :: r) := by
  cases h : sequenceOpt l <;> simp [sequenceOpt, h]

/-- Every element of a successful row computation occurs in the input. -/
theorem sequenceOpt_mem {α : Type} : ∀ (l : List (Option α)) (r : List α),
    sequenceOpt l = some r → ∀ a ∈ r, some a ∈ l := by
  intro l
  induction l with
  | nil =>
    intro r h a ha
    have h' : some ([] : List α) = some r := h
    cases h'
    simp at ha
  | cons o l ih =>
    intro r h a ha
    cases o with
    | none => exact Option.noConfusion h
    | some b =>
      rw [sequenceOpt_cons_some] at h
      cases hrec : sequenceOpt l with
      | none => rw [hrec] at h; exact Option.noConfusion h
      | some rr =>
        rw [hrec] at h
        have h'' : some (b :: rr) = some r := h
        cases h''
        rcases List.mem_cons.mp ha with rfl | ha2
        · exact List.mem_cons_self _ _
        · exact List.mem_cons_of_mem _ (ih rr hrec a ha2)

/-- Row results of the wrapped text are the flipped row results. -/
theorem sequenceOpt_map_flip (l : List (List (Char × Char)))
    (g g2 : List (Char × Char) → Option Char)
    (hrel : ∀ x ∈ l, ∀ rr, g x = some rr → g2 x = some (flipTF rr)) :
    ∀ (res : List Char), sequenceOpt (l.map g) = some res →
    sequenceOpt (l.map g2) = some (res.map flipTF) := by
  induction l with
  | nil =>
    intro res h
    have h' : some ([] : List Char) = some res := h
    cases h'
    rfl
  | cons x l ih =>
    intro res h
    rw [List.map_cons] at h
    cases hg : g x with
    | none => rw [hg] at h; exact Option.noConfusion h
    | some rr =>
      rw [hg, sequenceOpt_cons_some] at h
      cases hrec : sequenceOpt (l.map g) with
      | none => rw [hrec] at h; exact Option.noConfusion h
      | some rlist =>
        rw [hrec] at h
        have h'' : some (rr :: rlist) = some res := h
        cases h''
        have ihres := ih (fun y hy rr2 hg2 => hrel y (by simp [hy]) rr2 hg2) rlist hrec
        have hg2 := hrel x (by simp) rr hg
        rw [List.map_cons, hg2, sequenceOpt_cons_some, ihres]
        rfl

/-- The keys of each generated assignment are exactly the variable list. -/
theorem generate_keys (vs : List Char) (combo : List (Char × Char))
    (h : combo ∈ generate_truth_combinations vs) : combo.map Prod.fst = vs := by
  unfold generate_truth_combinations at h
  obtain ⟨i, _, rfl⟩ := List.mem_map.mp h
  rw [List.map_map]
  exact List.enum_map_snd vs

/-- The wrapper adds no variables. -/
theorem extract_variables_negwrap (f : List Char) :
    extract_variables ('¬' :: '(' :: (f ++ [')'])) = extract_variables f := by
  unfold extract_variables
  have hfil : ('¬' :: '(' :: (f ++ [')'])).filter (fun c => decide (c ∈ varChars)) =
      f.filter (fun c => decide (c ∈ varChars)) := by
    rw [List.filter_cons_of_neg (by decide), List.filter_cons_of_neg (by decide),
      List.filter_append]
    simp [varChars]
  rw [hfil]

/-- Classification of the pointwise-flipped result column. -/
theorem classify_map_flip (res : List Char) (hne : res ≠ [])
    (hTF : ∀ r ∈ res, r = 'T' ∨ r = 'F') :
    classify (res.map flipTF) = negCls (classify res) := by
  have hmapne : res.map flipTF ≠ [] := by simpa using hne
  have hc1 := classify_eq res hne
  have hc2 := classify_eq (res.map flipTF) hmapne
  have hT : (∀ r ∈ res.map flipTF, r = 'T') ↔ (∀ r ∈ res, r = 'F') := by
    constructor
    · intro hh r hr
      have hfr := hh (flipTF r) (List.mem_map.mpr ⟨r, hr, rfl⟩)
      rcases hTF r hr with h | h
      · exfalso
        rw [h] at hfr
        exact absurd hfr (by decide)
      · exact h
    · intro hh r hr
      obtain ⟨s, hs, rfl⟩ := List.mem_map.mp hr
      rw [hh s hs]
      rfl
  have hF : (∀ r ∈ res.map flipTF, r = 'F') ↔ (∀ r ∈ res, r = 'T') := by
    constructor
    · intro hh r hr
      have hfr := hh (flipTF r) (List.mem_map.mpr ⟨r, hr, rfl⟩)
      rcases hTF r hr with h | h
      · exact h
      · exfalso
        rw [h] at hfr
        exact absurd hfr (by decide)
    · intro hh r hr
      obtain ⟨s, hs, rfl⟩ := List.mem_map.mp hr
      rw [hh s hs]
      rfl
  cases hcase : classify res with
  | tautology =>
    have hallT := hc1.1.mp hcase
    exact hc2.2.1.mpr (hF.mpr hallT)
  | contradiction =>
    have hallF := hc1.2.1.mp hcase
    exact hc2.1.mpr (hT.mpr hallF)
  | contingent =>
    obtain ⟨hnT, hnF⟩ := hc1.2.2.mp hcase
    exact hc2.2.2.mpr ⟨fun hh => hnF (hT.mp hh), fun hh => hnT (hF.mp hh)⟩

/-- Wrapping the formula text in ¬( ... ) flips every row result and maps the
classification through `negCls`. -/
theorem ttg_negwrap (f : List Char) (rows : List (List (Char × Char) × Char))
    (cls : Classification) (h : truth_table_generator f = .table rows cls) :
    truth_table_generator ('¬' :: '(' :: (f ++ [')'])) =
      .table (rows.map (fun rc => (rc.1, flipTF rc.2))) (negCls cls) := by
  obtain ⟨-, hvne, results, hres, hrows, hcls⟩ := ttg_table_elim h
  have hkeys : ∀ combo ∈ generate_truth_combinations (extract_variables f),
      ∀ x ∈ combo, x.1 ∈ varChars := by
    intro combo hc x hx
    have hmap := generate_keys _ combo hc
    have hx1 : x.1 ∈ combo.map Prod.fst := List.mem_map.mpr ⟨x, hx, rfl⟩
    rw [hmap, extract_variables_eq] at hx1
    exact List.mem_of_mem_filter hx1
  have heval : ∀ combo ∈ generate_truth_combinations (extract_variables f),
      ∀ rr, evaluate_formula f combo = some rr →
      evaluate_formula ('¬' :: '(' :: (f ++ [')'])) combo = some (flipTF rr) :=
    fun combo hc rr hrr =>
      evaluate_formula_negwrap f combo (fun x hx => hkeys combo hc x hx) rr hrr
  have hres2 := sequenceOpt_map_flip (generate_truth_combinations (extract_variables f))
    (evaluate_formula f) (evaluate_formula ('¬' :: '(' :: (f ++ [')']))) heval results hres
  have hresne : results ≠ [] := by
    have hlen : results.length = 2 ^ (extract_variables f).length := by
      have := sequenceOpt_length _ _ hres
      simpa [generate_length] using this
    have : 0 < results.length := by rw [hlen]; positivity
    exact List.ne_nil_of_length_pos this
  have hTFres : ∀ r ∈ results, r = 'T' ∨ r = 'F' := by
    intro r hr
    have hmem := sequenceOpt_mem _ _ hres r hr
    obtain ⟨combo, _, heq⟩ := List.mem_map.mp hmem
    exact evaluate_formula_TF heq
  simp only [truth_table_generator, extract_variables_negwrap, List.isEmpty_cons,
    Bool.false_eq_true, if_false]
  rw [hvne]
  simp only [Bool.false_eq_true, if_false]
  rw [hres2]
  have hzip : (generate_truth_combinations (extract_variables f)).zip (results.map flipTF) =
      ((generate_truth_combinations (extract_variables f)).zip results).map
        (fun rc => (rc.1, flipTF rc.2)) := by
    rw [List.zip_map_right]
    rfl
  show TabOutcome.table
      ((generate_truth_combinations (extract_variables f)).zip (results.map flipTF))
      (classify (results.map flipTF)) =
    TabOutcome.table (rows.map (fun rc => (rc.1, flipTF rc.2))) (negCls cls)
  rw [hzip, hrows, hcls, classify_map_flip results hresne hTFres]

/-- Counterexample to C8 as stated: p∨¬p is classified Tautology, but the
formula obtained by merely prefixing ¬ to its text is ¬p∨¬p, which the
evaluator reads as (¬p)∨(¬p) and classifies Contingent, not Contradiction. -/
theorem bare_negation_counterexample :
    truth_table_generator "p∨¬p".toList =
      .table [([('p', 'F')], 'T'), ([('p', 'T')], 'T')] .tautology ∧
    truth_table_generator "¬p∨¬p".toList =
      .table [([('p', 'F')], 'T'), ([('p', 'T')], 'F')] .contingent := by
  decide

/-- C8 amended: for every formula text over the input alphabet that tabulates
successfully, negating it with explicit parentheses — prefixing ¬ and
parenthesizing the original formula — flips every row result, and the negated
formula is classified Contradiction exactly when the original is classified
Tautology. -/
theorem paren_negation_classification (f : List Char)
    (rows : List (List (Char × Char) × Char)) (cls : Classification)
    (halpha : ∀ c ∈ f, c ∈ formulaAlphabet)
    (h : truth_table_generator f = .table rows cls) :
    truth_table_generator ('¬' :: '(' :: (f ++ [')'])) =
      .table (rows.map (fun rc => (rc.1, flipTF rc.2))) (negCls cls) ∧
    (cls = .tautology ↔ negCls cls = .contradiction) := by
  refine ⟨ttg_negwrap f rows cls h, ?_⟩
  cases cls <;> simp [negCls]

theorem paren_negation_classification_witness :
    truth_table_generator ('¬' :: '(' :: ("p∨¬p".toList ++ [')'])) =
      .table ([([('p', 'F')], 'T'), ([('p', 'T')], 'T')].map
        (fun rc => (rc.1, flipTF rc.2))) (negCls .tautology) ∧
    (Classification.tautology = .tautology ↔
      negCls .tautology = .contradiction) :=
  paren_negation_classification "p∨¬p".toList
    [([('p', 'F')], 'T'), ([('p', 'T')], 'T')] .tautology (by decide) (by decide)

/-! Correctness of the full pipeline on explicitly grouped formulas (C1).
The proof tracks the rendered text through substitution, connective
replacement, tokenization and parsing. -/

/-- Characters the renderer can emit. -/
def renderAlphabet : List Char :=
  ['p', 'q', 'r', 's', '¬', '∧', '∨', '→', '↔', '(', ')']

/-- No two adjacent word characters, given the word status of the character
preceding the list. -/
def SepFrom : Bool → List Char → Prop
  | _, [] => True
  | w, c :: rest => (w = true → isWordChar c = false) ∧ SepFrom (isWordChar c) rest

theorem sepFrom_cons_nonword (c : Char) (t : List Char)
    (hc : isWordChar c = false) (ht : SepFrom false t) :
    ∀ w, SepFrom w (c :: t) := by
  intro w
  exact ⟨fun _ => hc, by rw [hc]; exact ht⟩

theorem sepFrom_append (w : Bool) (s t : List Char) (hs : SepFrom w s)
    (ht : ∀ w2, SepFrom w2 t) : SepFrom w (s ++ t) := by
  induction s generalizing w with
  | nil => simpa using ht w
  | cons c s ih =>
    obtain ⟨h1, h2⟩ := hs
    exact ⟨h1, ih (isWordChar c) h2⟩

theorem varChars_word (c : Char) (hc : c ∈ varChars) : isWordChar c = true := by
  fin_cases hc <;> decide

/-- Every operand rendering of a compound formula is its parenthesized text. -/
theorem alpha_wrap (G : Formula) (hG : ∀ c ∈ render G, c ∈ renderAlphabet)
    (hw : wrapR G = '(' :: (render G ++ [')'])) :
    ∀ c ∈ wrapR G, c ∈ renderAlphabet := by
  rw [hw]
  intro c hc
  simp only [List.mem_cons, List.mem_append, List.mem_singleton] at hc
  rcases hc with rfl | hc | rfl | h0
  · decide
  · exact hG c hc
  · decide
  · exact absurd h0 (List.not_mem_nil c)

/-- Rendered text stays inside the output alphabet. -/
theorem render_alpha (F : Formula) :
    (∀ c ∈ render F, c ∈ renderAlphabet) ∧ (∀ c ∈ wrapR F, c ∈ renderAlphabet) := by
  induction F with
  | var v =>
    have h : ∀ c ∈ [V.toChar v], c ∈ renderAlphabet := by
      intro c hc
      simp only [List.mem_singleton] at hc
      subst hc
      cases v <;> decide
    exact ⟨by simpa [render] using h, by simpa [wrapR] using h⟩
  | neg A ihA =>
    have hr : ∀ c ∈ render (Formula.neg A), c ∈ renderAlphabet := by
      intro c hc
      simp only [render, List.mem_cons] at hc
      rcases hc with rfl | hc
      · decide
      · exact ihA.2 c hc
    exact ⟨hr, alpha_wrap _ hr (by simp [wrapR])⟩
  | conj A B ihA ihB =>
    have hr : ∀ c ∈ render (Formula.conj A B), c ∈ renderAlphabet := by
      intro c hc
      simp only [render, List.mem_append, List.mem_cons] at hc
      rcases hc with hc | rfl | hc
      · exact ihA.2 c hc
      · decide
      · exact ihB.2 c hc
    exact ⟨hr, alpha_wrap _ hr (by simp [wrapR])⟩
  | disj A B ihA ihB =>
    have hr : ∀ c ∈ render (Formula.disj A B), c ∈ renderAlphabet := by
      intro c hc
      simp only [render, List.mem_append, List.mem_cons] at hc
      rcases hc with hc | rfl | hc
      · exact ihA.2 c hc
      · decide
      · exact ihB.2 c hc
    exact ⟨hr, alpha_wrap _ hr (by simp [wrapR])⟩
  | impl A B ihA ihB =>
    have hr : ∀ c ∈ render (Formula.impl A B), c ∈ renderAlphabet := by
      intro c hc
      simp only [render, List.mem_append, List.mem_cons] at hc
      rcases hc with hc | rfl | hc
      · exact ihA.2 c hc
      · decide
      · exact ihB.2 c hc
    exact ⟨hr, alpha_wrap _ hr (by simp [wrapR])⟩
  | iffc A B ihA ihB =>
    have hr : ∀ c ∈ render (Formula.iffc A B), c ∈ renderAlphabet := by
      intro c hc
      simp only [render, List.mem_append, List.mem_cons] at hc
      rcases hc with hc | rfl | hc
      · exact ihA.2 c hc
      · decide
      · exact ihB.2 c hc
    exact ⟨hr, alpha_wrap _ hr (by simp [wrapR])⟩

theorem sepFrom_wrap (G : Formula) (hG : SepFrom false (render G))
    (hw : wrapR G = '(' :: (render G ++ [')'])) : SepFrom false (wrapR G) := by
  rw [hw]
  simp only [SepFrom]
  refine ⟨by simp, ?_⟩
  rw [show isWordChar '(' = false from by decide]
  exact sepFrom_append false _ _ hG
    (sepFrom_cons_nonword ')' [] (by decide) (by simp [SepFrom]))

/-- Rendered text never puts two word characters side by side: every variable
occurrence stands between connectives, parentheses or the ends of the text. -/
theorem render_sep (F : Formula) :
    SepFrom false (render F) ∧ SepFrom false (wrapR F) := by
  induction F with
  | var v =>
    have h : SepFrom false [V.toChar v] := by simp [SepFrom]
    exact ⟨by simpa [render] using h, by simpa [wrapR] using h⟩
  | neg A ihA =>
    have hr : SepFrom false (render (Formula.neg A)) := by
      simp only [render, SepFrom]
      refine ⟨by simp, ?_⟩
      rw [show isWordChar '¬' = false from by decide]
      exact ihA.2
    exact ⟨hr, sepFrom_wrap _ hr (by simp [wrapR])⟩
  | conj A B ihA ihB =>
    have hr : SepFrom false (render (Formula.conj A B)) := by
      simp only [render]
      exact sepFrom_append false _ _ ihA.2
        (sepFrom_cons_nonword '∧' _ (by decide) ihB.2)
    exact ⟨hr, sepFrom_wrap _ hr (by simp [wrapR])⟩
  | disj A B ihA ihB =>
    have hr : SepFrom false (render (Formula.disj A B)) := by
      simp only [render]
      exact sepFrom_append false _ _ ihA.2
        (sepFrom_cons_nonword '∨' _ (by decide) ihB.2)
    exact ⟨hr, sepFrom_wrap _ hr (by simp [wrapR])⟩
  | impl A B ihA ihB =>
    have hr : SepFrom false (render (Formula.impl A B)) := by
      simp only [render]
      exact sepFrom_append false _ _ ihA.2
        (sepFrom_cons_nonword '→' _ (by decide) ihB.2)
    exact ⟨hr, sepFrom_wrap _ hr (by simp [wrapR])⟩
  | iffc A B ihA ihB =>
    have hr : SepFrom false (render (Formula.iffc A B)) := by
      simp only [render]
      exact sepFrom_append false _ _ ihA.2
        (sepFrom_cons_nonword '↔' _ (by decide) ihB.2)
    exact ⟨hr, sepFrom_wrap _ hr (by simp [wrapR])⟩

theorem find?_append_some {α : Type} {p : α → Bool} :
    ∀ {l1 : List α} (l2 : List α) {x : α},
    l1.find? p = some x → (l1 ++ l2).find? p = some x := by
  intro l1
  induction l1 with
  | nil => intro l2 x h; simp [List.find?] at h
  | cons a l ih =>
    intro l2 x h
    rw [List.cons_append]
    cases hpa : p a with
    | true =>
      rw [List.find?_cons_of_pos _ hpa] at h ⊢
      exact h
    | false =>
      rw [List.find?_cons_of_neg _ (by rw [hpa]; exact Bool.false_ne_true)] at h ⊢
      exact ih l2 h

theorem find?_append_none {α : Type} {p : α → Bool} :
    ∀ {l1 : List α} (l2 : List α),
    l1.find? p = none → (l1 ++ l2).find? p = l2.find? p := by
  intro l1
  induction l1 with
  | nil => intro l2 _; rfl
  | cons a l ih =>
    intro l2 h
    rw [List.cons_append]
    cases hpa : p a with
    | true => rw [List.find?_cons_of_pos _ hpa] at h; exact Option.noConfusion h
    | false =>
      rw [List.find?_cons_of_neg _ (by rw [hpa]; exact Bool.false_ne_true)] at h ⊢
      exact ih l2 h

/-- Simultaneous substitution: the image of one character under the whole
assignment; the first matching entry wins, other characters stand. -/
def subChar (tv : List (Char × Char)) (c : Char) : List Char :=
  ((tv.find? (fun x => decide (x.1 = c))).map (fun x => boolText x.2)).getD [c]

theorem boolText_TFText (val : Char) : TFText (boolText val) := by
  unfold boolText TFText
  split
  · left; rfl
  · right; rfl

theorem find?_none_of_not_var (tv : List (Char × Char))
    (htv : ∀ x ∈ tv, x.1 ∈ varChars) (c : Char) (hc : c ∉ varChars) :
    tv.find? (fun x => decide (x.1 = c)) = none := by
  rw [List.find?_eq_none]
  intro x hx
  simp only [decide_eq_true_eq]
  intro hxe
  exact hc (hxe ▸ htv x hx)

/-- One pass of the word-boundary substitution over an already partially
substituted separated text records one more entry in the simultaneous
substitution. -/
theorem reSub_subChar_step (e : Char × Char) (tv : List (Char × Char))
    (hv : e.1 ∈ varChars)
    (hnotin : tv.find? (fun x => decide (x.1 = e.1)) = none)
    (htv : ∀ x ∈ tv, x.1 ∈ varChars) :
    ∀ (s : List Char) (p p' : Option Char), wstat p' = wstat p →
    (∀ c ∈ s, c ∈ renderAlphabet) → SepFrom (wstat p) s →
    reSub e.1 (boolText e.2) p' (s.flatMap (subChar tv)) =
      s.flatMap (subChar (tv ++ [e])) := by
  obtain ⟨v, val⟩ := e
  intro s
  induction s with
  | nil => intro p p' _ _ _; rfl
  | cons c s ih =>
    intro p p' hpp hal hsep
    obtain ⟨hsep1, hsep2⟩ := hsep
    rw [List.flatMap_cons, List.flatMap_cons]
    cases hfind : tv.find? (fun x => decide (x.1 = c)) with
    | some x =>
      have hx1 : x ∈ tv := List.mem_of_find?_eq_some hfind
      have hx2 : x.1 = c := by
        have := List.find?_some hfind
        simpa using this
      have hcvar : c ∈ varChars := hx2 ▸ htv x hx1
      have hsub1 : subChar tv c = boolText x.2 := by simp [subChar, hfind]
      have hsub2 : subChar (tv ++ [(v, val)]) c = boolText x.2 := by
        simp [subChar, find?_append_some _ hfind]
      have htf : TFText (boolText x.2) := boolText_TFText x.2
      rw [hsub1, hsub2,
        reSub_skip v (boolText val) (boolText x.2) p' (s.flatMap (subChar tv))
          htf.all_word (fun hh => absurd hh (htf.head_ne_var hv)),
        ih (some c) (prevAfter (boolText x.2) p')
          (by rw [htf.prevAfter_wstat, show wstat (some c) = isWordChar c from rfl,
                varChars_word c hcvar])
          (fun d hd => hal d (List.mem_cons_of_mem _ hd)) hsep2]
    | none =>
      have hsub1 : subChar tv c = [c] := by simp [subChar, hfind]
      by_cases hcv : c = v
      · have hcw : isWordChar c = true := varChars_word c (hcv ▸ hv)
        have hpw : wstat p = false := by
          cases hp : wstat p with
          | false => rfl
          | true => exact absurd (hsep1 hp) (by simp [hcw])
        have hhead : wstat (s.flatMap (subChar tv)).head? = false := by
          cases s with
          | nil => rfl
          | cons d s2 =>
            obtain ⟨hs1, _⟩ := hsep2
            have hdw : isWordChar d = false := hs1 hcw
            have hd_nv : d ∉ varChars := fun hmem => by
              rw [varChars_word d hmem] at hdw
              exact Bool.noConfusion hdw
            rw [List.flatMap_cons,
              show subChar tv d = [d] by
                simp [subChar, find?_none_of_not_var tv htv d hd_nv]]
            exact hdw
        have hcond : (decide (c = v) && !wstat p' &&
            !wstat (s.flatMap (subChar tv)).head?) = true := by
          rw [hpp, hpw, hhead]
          simp [hcv]
        have hsub2 : subChar (tv ++ [(v, val)]) c = boolText val := by
          have hone : List.find? (fun x => decide (x.1 = c)) [(v, val)] =
              some (v, val) := by
            rw [List.find?_cons_of_pos]
            simp [hcv]
          simp [subChar, find?_append_none _ hfind, hone]
        rw [hsub1, hsub2, List.singleton_append]
        simp only [reSub]
        rw [if_pos hcond,
          ih (some c) (some c) rfl
            (fun d hd => hal d (List.mem_cons_of_mem _ hd)) hsep2]
      · have hcond : (decide (c = v) && !wstat p' &&
            !wstat (s.flatMap (subChar tv)).head?) = false := by
          simp [hcv]
        have hsub2 : subChar (tv ++ [(v, val)]) c = [c] := by
          have hone : List.find? (fun x => decide (x.1 = c)) [(v, val)] = none := by
            rw [List.find?_cons_of_neg]
            · rfl
            · simp
              exact fun h => hcv h.symm
          simp [subChar, find?_append_none _ hfind, hone]
        rw [hsub1, hsub2, List.singleton_append, List.singleton_append]
        simp only [reSub]
        rw [if_neg (by rw [hcond]; exact Bool.false_ne_true),
          ih (some c) (some c) rfl
            (fun d hd => hal d (List.mem_cons_of_mem _ hd)) hsep2]

/-- Folding the per-variable substitutions accumulates the simultaneous
substitution, entry by entry. -/
theorem foldl_subChar (s : List Char) (hs : ∀ c ∈ s, c ∈ renderAlphabet)
    (hsep : SepFrom false s) :
    ∀ (tv done : List (Char × Char)),
    (∀ x ∈ done ++ tv, x.1 ∈ varChars) →
    ((done ++ tv).map Prod.fst).Nodup →
    tv.foldl (fun acc vv => reSub vv.1 (boolText vv.2) none acc)
        (s.flatMap (subChar done)) =
      s.flatMap (subChar (done ++ tv)) := by
  intro tv
  induction tv with
  | nil => intro done _ _; simp
  | cons vv tv ih =>
    intro done hkeys hnd
    rw [List.foldl_cons]
    have hv : vv.1 ∈ varChars := hkeys vv (by simp)
    have hnd2 : (done.map Prod.fst ++ vv.1 :: tv.map Prod.fst).Nodup := by
      simpa using hnd
    have hdisj := (List.nodup_append.mp hnd2).2.2
    have hnotmem : vv.1 ∉ done.map Prod.fst := fun hm => hdisj hm (by simp)
    have hnotin : done.find? (fun x => decide (x.1 = vv.1)) = none := by
      rw [List.find?_eq_none]
      intro x hx
      simp only [decide_eq_true_eq]
      intro hxe
      exact hnotmem (hxe ▸ List.mem_map_of_mem Prod.fst hx)
    have hassoc : done ++ [vv] ++ tv = done ++ vv :: tv := by simp
    rw [reSub_subChar_step vv done hv hnotin
        (fun x hx => hkeys x (List.mem_append_left _ hx)) s none none rfl hs hsep,
      ih (done ++ [vv]) (by rw [hassoc]; exact hkeys) (by rw [hassoc]; exact hnd),
      hassoc]

theorem flatMap_subChar_nil (s : List Char) : s.flatMap (subChar []) = s := by
  induction s with
  | nil => rfl
  | cons c s ih =>
    rw [List.flatMap_cons, ih]
    rfl

/-- On separated text over the renderer's alphabet, substituting the
assignment entries one after the other is the simultaneous per-character
substitution. -/
theorem substituteVars_flatMap (tv : List (Char × Char)) (s : List Char)
    (htv : ∀ x ∈ tv, x.1 ∈ varChars) (hnd : (tv.map Prod.fst).Nodup)
    (hs : ∀ c ∈ s, c ∈ renderAlphabet) (hsep : SepFrom false s) :
    substituteVars tv s = s.flatMap (subChar tv) := by
  unfold substituteVars
  conv_lhs => rw [← flatMap_subChar_nil s]
  exact foldl_subChar s hs hsep tv [] (by simpa using htv) (by simpa using hnd)

/-- Replacement text for a variable under an assignment. -/
def tfText (b : Bool) : List Char := if b then "True".toList else "False".toList

mutual
/-- The evaluator input that substitution and connective replacement produce
from a rendered formula. -/
def textR : Formula → (V → Bool) → List Char
  | .var v, σ => tfText (σ v)
  | .neg A, σ => "not ".toList ++ textW A σ
  | .conj A B, σ => textW A σ ++ " and ".toList ++ textW B σ
  | .disj A B, σ => textW A σ ++ " or ".toList ++ textW B σ
  | .impl A B, σ => textW A σ ++ " <= ".toList ++ textW B σ
  | .iffc A B, σ => textW A σ ++ " == ".toList ++ textW B σ

/-- Operand form: parenthesized except for bare variables. -/
def textW : Formula → (V → Bool) → List Char
  | .var v, σ => tfText (σ v)
  | F, σ => '(' :: (textR F σ ++ [')'])
end

theorem replaceChar_flatMap (c : Char) (rep : List Char) (g : Char → List Char) :
    ∀ s : List Char,
    replaceChar c rep (s.flatMap g) = s.flatMap (fun d => replaceChar c rep (g d)) := by
  intro s
  induction s with
  | nil => rfl
  | cons d s ih =>
    rw [List.flatMap_cons, List.flatMap_cons, replaceChar_append, ih]

theorem replaceConnectives_flatMap (g : Char → List Char) :
    ∀ s : List Char,
    replaceConnectives (s.flatMap g) =
      s.flatMap (fun d => replaceConnectives (g d)) := by
  intro s
  induction s with
  | nil => rfl
  | cons d s ih =>
    rw [List.flatMap_cons, List.flatMap_cons, replaceConnectives_append, ih]

/-- The assignment agrees with `σ` on every variable character of `s`. -/
def DictOK (tv : List (Char × Char)) (σ : V → Bool) (s : List Char) : Prop :=
  ∀ c ∈ s, c ∈ varChars →
    tv.find? (fun x => decide (x.1 = c)) =
      some (c, if σ (charToV c) then 'T' else 'F')

theorem DictOK.mono {tv : List (Char × Char)} {σ : V → Bool} {s t : List Char}
    (h : DictOK tv σ t) (hsub : ∀ c ∈ s, c ∈ t) : DictOK tv σ s :=
  fun c hc => h c (hsub c hc)

theorem toChar_mem_varChars (v : V) : V.toChar v ∈ varChars := by
  cases v <;> decide

theorem charToV_toChar (v : V) : charToV (V.toChar v) = v := by
  cases v <;> decide

theorem boolText_tf (b : Bool) : boolText (if b then 'T' else 'F') = tfText b := by
  cases b <;> rfl

theorem RC_tfText (b : Bool) : replaceConnectives (tfText b) = tfText b := by
  cases b <;> decide

theorem RCsub_nonvar (tv : List (Char × Char))
    (htv : ∀ x ∈ tv, x.1 ∈ varChars) (c : Char) (hc : c ∉ varChars) :
    replaceConnectives (subChar tv c) = replaceConnectives [c] := by
  rw [show subChar tv c = [c] from by
    simp [subChar, find?_none_of_not_var tv htv c hc]]

/-- Substituting and replacing connectives on a rendered formula yields its
evaluator text. -/
theorem flatMap_textR (tv : List (Char × Char))
    (htv : ∀ x ∈ tv, x.1 ∈ varChars) (σ : V → Bool) : ∀ F : Formula,
    (DictOK tv σ (render F) →
      (render F).flatMap (fun c => replaceConnectives (subChar tv c)) = textR F σ) ∧
    (DictOK tv σ (wrapR F) →
      (wrapR F).flatMap (fun c => replaceConnectives (subChar tv c)) = textW F σ) := by
  intro F
  induction F with
  | var v =>
    constructor
    · intro hd
      simp only [render, textR]
      have hfind := hd (V.toChar v) (by simp [render]) (toChar_mem_varChars v)
      simp only [List.flatMap_cons, List.flatMap_nil, List.append_nil]
      rw [show subChar tv (V.toChar v) =
          boolText (if σ (charToV (V.toChar v)) then 'T' else 'F') from by
        simp [subChar, hfind]]
      rw [charToV_toChar, boolText_tf, RC_tfText]
    · intro hd
      simp only [wrapR, textW]
      have hfind := hd (V.toChar v) (by simp [wrapR]) (toChar_mem_varChars v)
      simp only [List.flatMap_cons, List.flatMap_nil, List.append_nil]
      rw [show subChar tv (V.toChar v) =
          boolText (if σ (charToV (V.toChar v)) then 'T' else 'F') from by
        simp [subChar, hfind]]
      rw [charToV_toChar, boolText_tf, RC_tfText]
  | neg A ihA =>
    have hr : DictOK tv σ (render (Formula.neg A)) →
        (render (Formula.neg A)).flatMap
          (fun c => replaceConnectives (subChar tv c)) = textR (Formula.neg A) σ := by
      intro hd
      simp only [render, textR]
      rw [List.flatMap_cons]
      rw [RCsub_nonvar tv htv '¬' (by decide),
        show replaceConnectives ['¬'] = "not ".toList from by decide]
      rw [ihA.2 (hd.mono (fun c hc => by
        simp only [render]
        exact List.mem_cons_of_mem _ hc))]
    refine ⟨hr, ?_⟩
    intro hd
    simp only [wrapR, textW]
    rw [List.flatMap_cons, List.flatMap_append]
    rw [RCsub_nonvar tv htv '(' (by decide),
      show replaceConnectives ['('] = ['('] from by decide]
    rw [show List.flatMap [')'] (fun c => replaceConnectives (subChar tv c)) =
        [')'] from by
      simp only [List.flatMap_cons, List.flatMap_nil, List.append_nil]
      rw [RCsub_nonvar tv htv ')' (by decide)]
      decide]
    rw [hr (hd.mono (fun c hc => by
      simp only [wrapR]
      exact List.mem_cons_of_mem _ (List.mem_append_left _ hc)))]
    rfl
  | conj A B ihA ihB =>
    have hr : DictOK tv σ (render (Formula.conj A B)) →
        (render (Formula.conj A B)).flatMap
          (fun c => replaceConnectives (subChar tv c)) =
          textR (Formula.conj A B) σ := by
      intro hd
      simp only [render, textR]
      rw [List.flatMap_append, List.flatMap_cons]
      rw [RCsub_nonvar tv htv '∧' (by decide),
        show replaceConnectives ['∧'] = " and ".toList from by decide]
      rw [ihA.2 (hd.mono (fun c hc => by
          simp only [render]
          exact List.mem_append_left _ hc)),
        ihB.2 (hd.mono (fun c hc => by
          simp only [render]
          exact List.mem_append_right _ (List.mem_cons_of_mem _ hc)))]
      rw [List.append_assoc]
    refine ⟨hr, ?_⟩
    intro hd
    simp only [wrapR, textW]
    rw [List.flatMap_cons, List.flatMap_append]
    rw [RCsub_nonvar tv htv '(' (by decide),
      show replaceConnectives ['('] = ['('] from by decide]
    rw [show List.flatMap [')'] (fun c => replaceConnectives (subChar tv c)) =
        [')'] from by
      simp only [List.flatMap_cons, List.flatMap_nil, List.append_nil]
      rw [RCsub_nonvar tv htv ')' (by decide)]
      decide]
    rw [hr (hd.mono (fun c hc => by
      simp only [wrapR]
      exact List.mem_cons_of_mem _ (List.mem_append_left _ hc)))]
    rfl
  | disj A B ihA ihB =>
    have hr : DictOK tv σ (render (Formula.disj A B)) →
        (render (Formula.disj A B)).flatMap
          (fun c => replaceConnectives (subChar tv c)) =
          textR (Formula.disj A B) σ := by
      intro hd
      simp only [render, textR]
      rw [List.flatMap_append, List.flatMap_cons]
      rw [RCsub_nonvar tv htv '∨' (by decide),
        show replaceConnectives ['∨'] = " or ".toList from by decide]
      rw [ihA.2 (hd.mono (fun c hc => by
          simp only [render]
          exact List.mem_append_left _ hc)),
        ihB.2 (hd.mono (fun c hc => by
          simp only [render]
          exact List.mem_append_right _ (List.mem_cons_of_mem _ hc)))]
      rw [List.append_assoc]
    refine ⟨hr, ?_⟩
    intro hd
    simp only [wrapR, textW]
    rw [List.flatMap_cons, List.flatMap_append]
    rw [RCsub_nonvar tv htv '(' (by decide),
      show replaceConnectives ['('] = ['('] from by decide]
    rw [show List.flatMap [')'] (fun c => replaceConnectives (subChar tv c)) =
        [')'] from by
      simp only [List.flatMap_cons, List.flatMap_nil, List.append_nil]
      rw [RCsub_nonvar tv htv ')' (by decide)]
      decide]
    rw [hr (hd.mono (fun c hc => by
      simp only [wrapR]
      exact List.mem_cons_of_mem _ (List.mem_append_left _ hc)))]
    rfl
  | impl A B ihA ihB =>
    have hr : DictOK tv σ (render (Formula.impl A B)) →
        (render (Formula.impl A B)).flatMap
          (fun c => replaceConnectives (subChar tv c)) =
          textR (Formula.impl A B) σ := by
      intro hd
      simp only [render, textR]
      rw [List.flatMap_append, List.flatMap_cons]
      rw [RCsub_nonvar tv htv '→' (by decide),
        show replaceConnectives ['→'] = " <= ".toList from by decide]
      rw [ihA.2 (hd.mono (fun c hc => by
          simp only [render]
          exact List.mem_append_left _ hc)),
        ihB.2 (hd.mono (fun c hc => by
          simp only [render]
          exact List.mem_append_right _ (List.mem_cons_of_mem _ hc)))]
      rw [List.append_assoc]
    refine ⟨hr, ?_⟩
    intro hd
    simp only [wrapR, textW]
    rw [List.flatMap_cons, List.flatMap_append]
    rw [RCsub_nonvar tv htv '(' (by decide),
      show replaceConnectives ['('] = ['('] from by decide]
    rw [show List.flatMap [')'] (fun c => replaceConnectives (subChar tv c)) =
        [')'] from by
      simp only [List.flatMap_cons, List.flatMap_nil, List.append_nil]
      rw [RCsub_nonvar tv htv ')' (by decide)]
      decide]
    rw [hr (hd.mono (fun c hc => by
      simp only [wrapR]
      exact List.mem_cons_of_mem _ (List.mem_append_left _ hc)))]
    rfl
  | iffc A B ihA ihB =>
    have hr : DictOK tv σ (render (Formula.iffc A B)) →
        (render (Formula.iffc A B)).flatMap
          (fun c => replaceConnectives (subChar tv c)) =
          textR (Formula.iffc A B) σ := by
      intro hd
      simp only [render, textR]
      rw [List.flatMap_append, List.flatMap_cons]
      rw [RCsub_nonvar tv htv '↔' (by decide),
        show replaceConnectives ['↔'] = " == ".toList from by decide]
      rw [ihA.2 (hd.mono (fun c hc => by
          simp only [render]
          exact List.mem_append_left _ hc)),
        ihB.2 (hd.mono (fun c hc => by
          simp only [render]
          exact List.mem_append_right _ (List.mem_cons_of_mem _ hc)))]
      rw [List.append_assoc]
    refine ⟨hr, ?_⟩
    intro hd
    simp only [wrapR, textW]
    rw [List.flatMap_cons, List.flatMap_append]
    rw [RCsub_nonvar tv htv '(' (by decide),
      show replaceConnectives ['('] = ['('] from by decide]
    rw [show List.flatMap [')'] (fun c => replaceConnectives (subChar tv c)) =
        [')'] from by
      simp only [List.flatMap_cons, List.flatMap_nil, List.append_nil]
      rw [RCsub_nonvar tv htv ')' (by decide)]
      decide]
    rw [hr (hd.mono (fun c hc => by
      simp only [wrapR]
      exact List.mem_cons_of_mem _ (List.mem_append_left _ hc)))]
    rfl

theorem takeWhile_append_eq (p : Char → Bool) :
    ∀ (w : List Char), (∀ d ∈ w, p d = true) →
    ∀ (rest : List Char), (∀ d, rest.head? = some d → p d = false) →
    (w ++ rest).takeWhile p = w ∧ (w ++ rest).dropWhile p = rest := by
  intro w
  induction w with
  | nil =>
    intro _ rest hrest
    cases rest with
    | nil => exact ⟨rfl, rfl⟩
    | cons d rest2 =>
      have hd : p d = false := hrest d rfl
      constructor
      · rw [List.nil_append, List.takeWhile_cons, hd]
        rfl
      · rw [List.nil_append, List.dropWhile_cons, hd]
        rfl
  | cons c w ih =>
    intro hw rest hrest
    have hc : p c = true := hw c (List.mem_cons_self c w)
    obtain ⟨h1, h2⟩ := ih (fun d hd => hw d (List.mem_cons_of_mem _ hd)) rest hrest
    constructor
    · simp [List.cons_append, List.takeWhile_cons, hc, h1]
    · simp [List.cons_append, List.dropWhile_cons, hc, h2]

/-- Tokenizing a maximal word run followed by a non-word continuation. -/
theorem tokenize_word_prefix (c : Char) (w rest : List Char)
    (hcw : isWordChar c = true) (hw : ∀ d ∈ w, isWordChar d = true)
    (hrest : ∀ d, rest.head? = some d → isWordChar d = false) :
    tokenize ((c :: w) ++ rest) = classifyWord (c :: w) :: tokenize rest := by
  have hne : ∀ x : Char, isWordChar x = false → c ≠ x := by
    intro x hx h
    rw [h, hx] at hcw
    exact Bool.noConfusion hcw
  obtain ⟨htake, hdrop⟩ := takeWhile_append_eq isWordChar w hw rest hrest
  unfold tokenize
  rw [show ((c :: w) ++ rest).length = (w.length + rest.length) + 1 from by
    simp [List.length_append]]
  rw [List.cons_append]
  simp only [tokenizeF]
  rw [if_neg (hne ' ' (by decide)), if_neg (hne '(' (by decide)),
    if_neg (hne ')' (by decide)), if_neg (hne '<' (by decide)),
    if_neg (hne '=' (by decide)), if_pos hcw, htake, hdrop,
    tokenizeF_fuel (w.length + rest.length) rest.length rest (by omega) (by omega)]

theorem tokenize_tfText (b : Bool) (rest : List Char)
    (hrest : ∀ d, rest.head? = some d → isWordChar d = false) :
    tokenize (tfText b ++ rest) =
      (if b then Tok.TRUE else Tok.FALSE) :: tokenize rest := by
  cases b with
  | false =>
    rw [show tfText false = 'F' :: ['a', 'l', 's', 'e'] from by decide,
      tokenize_word_prefix 'F' ['a', 'l', 's', 'e'] rest (by decide) (by decide) hrest,
      show classifyWord ('F' :: ['a', 'l', 's', 'e']) = Tok.FALSE from by decide]
    rfl
  | true =>
    rw [show tfText true = 'T' :: ['r', 'u', 'e'] from by decide,
      tokenize_word_prefix 'T' ['r', 'u', 'e'] rest (by decide) (by decide) hrest,
      show classifyWord ('T' :: ['r', 'u', 'e']) = Tok.TRUE from by decide]
    rfl

theorem tokenize_lp_cons (X : List Char) :
    tokenize ('(' :: X) = Tok.LP :: tokenize X := rfl

theorem tokenize_rp_cons (X : List Char) :
    tokenize (')' :: X) = Tok.RP :: tokenize X := rfl

theorem tokenize_not_seg (X : List Char) :
    tokenize ('n' :: 'o' :: 't' :: ' ' :: X) = Tok.NOT :: tokenize X := by
  have h1 : tokenize ('n' :: 'o' :: 't' :: ' ' :: X) =
      Tok.NOT :: tokenizeF (X.length + 2) X := rfl
  rw [h1, tokenizeF_fuel (X.length + 2) X.length X (by omega) (by omega)]
  rfl

theorem tokenize_and_seg (X : List Char) :
    tokenize (' ' :: 'a' :: 'n' :: 'd' :: ' ' :: X) = Tok.AND :: tokenize X := by
  have h1 : tokenize (' ' :: 'a' :: 'n' :: 'd' :: ' ' :: X) =
      Tok.AND :: tokenizeF (X.length + 2) X := rfl
  rw [h1, tokenizeF_fuel (X.length + 2) X.length X (by omega) (by omega)]
  rfl

theorem tokenize_or_seg (X : List Char) :
    tokenize (' ' :: 'o' :: 'r' :: ' ' :: X) = Tok.OR :: tokenize X := by
  have h1 : tokenize (' ' :: 'o' :: 'r' :: ' ' :: X) =
      Tok.OR :: tokenizeF (X.length + 1) X := rfl
  rw [h1, tokenizeF_fuel (X.length + 1) X.length X (by omega) (by omega)]
  rfl

theorem tokenize_le_seg (X : List Char) :
    tokenize (' ' :: '<' :: '=' :: ' ' :: X) = Tok.LE :: tokenize X := by
  have h1 : tokenize (' ' :: '<' :: '=' :: ' ' :: X) =
      Tok.LE :: tokenizeF (X.length + 1) X := rfl
  rw [h1, tokenizeF_fuel (X.length + 1) X.length X (by omega) (by omega)]
  rfl

theorem tokenize_eq_seg (X : List Char) :
    tokenize (' ' :: '=' :: '=' :: ' ' :: X) = Tok.EQ :: tokenize X := by
  have h1 : tokenize (' ' :: '=' :: '=' :: ' ' :: X) =
      Tok.EQ :: tokenizeF (X.length + 1) X := rfl
  rw [h1, tokenizeF_fuel (X.length + 1) X.length X (by omega) (by omega)]
  rfl

/-- The token standing for a stored boolean. -/
def bTok (b : Bool) : Tok := if b then Tok.TRUE else Tok.FALSE

mutual
/-- Token image of a rendered formula under an assignment. -/
def toksR : Formula → (V → Bool) → List Tok
  | .var v, σ => [bTok (σ v)]
  | .neg A, σ => Tok.NOT :: toksW A σ
  | .conj A B, σ => toksW A σ ++ Tok.AND :: toksW B σ
  | .disj A B, σ => toksW A σ ++ Tok.OR :: toksW B σ
  | .impl A B, σ => toksW A σ ++ Tok.LE :: toksW B σ
  | .iffc A B, σ => toksW A σ ++ Tok.EQ :: toksW B σ

/-- Token image of an operand: bare variables stand alone, compound operands
are parenthesized. -/
def toksW : Formula → (V → Bool) → List Tok
  | .var v, σ => [bTok (σ v)]
  | F, σ => Tok.LP :: (toksR F σ ++ [Tok.RP])
end

/-- Tokenizing the evaluator text of a formula (followed by any continuation
that starts with a non-word character) yields its token image. -/
theorem tokenize_textR (σ : V → Bool) : ∀ F : Formula,
    (∀ rest : List Char, (∀ d, rest.head? = some d → isWordChar d = false) →
      tokenize (textR F σ ++ rest) = toksR F σ ++ tokenize rest) ∧
    (∀ rest : List Char, (∀ d, rest.head? = some d → isWordChar d = false) →
      tokenize (textW F σ ++ rest) = toksW F σ ++ tokenize rest) := by
  have hsp : ∀ (Y : List Char), ∀ d : Char, (' ' :: Y).head? = some d →
      isWordChar d = false := by
    intro Y d hd
    rw [List.head?_cons] at hd
    injection hd with h
    subst h
    decide
  have hrp : ∀ (Y : List Char), ∀ d : Char, (')' :: Y).head? = some d →
      isWordChar d = false := by
    intro Y d hd
    rw [List.head?_cons] at hd
    injection hd with h
    subst h
    decide
  intro F
  induction F with
  | var v =>
    constructor
    · intro rest hrest
      simp only [textR, toksR]
      rw [tokenize_tfText (σ v) rest hrest]
      rfl
    · intro rest hrest
      simp only [textW, toksW]
      rw [tokenize_tfText (σ v) rest hrest]
      rfl
  | neg A ihA =>
    have hr : ∀ rest : List Char, (∀ d, rest.head? = some d → isWordChar d = false) →
        tokenize (textR (Formula.neg A) σ ++ rest) =
          toksR (Formula.neg A) σ ++ tokenize rest := by
      intro rest hrest
      simp only [textR, toksR]
      rw [List.append_assoc,
        show "not ".toList ++ (textW A σ ++ rest) =
          'n' :: 'o' :: 't' :: ' ' :: (textW A σ ++ rest) from rfl,
        tokenize_not_seg, ihA.2 rest hrest]
      rfl
    refine ⟨hr, ?_⟩
    intro rest hrest
    simp only [textW, toksW]
    rw [show ('(' :: (textR (Formula.neg A) σ ++ [')'])) ++ rest =
        '(' :: (textR (Formula.neg A) σ ++ (')' :: rest)) from by simp,
      tokenize_lp_cons, hr (')' :: rest) (hrp rest), tokenize_rp_cons]
    simp
  | conj A B ihA ihB =>
    have hr : ∀ rest : List Char, (∀ d, rest.head? = some d → isWordChar d = false) →
        tokenize (textR (Formula.conj A B) σ ++ rest) =
          toksR (Formula.conj A B) σ ++ tokenize rest := by
      intro rest hrest
      simp only [textR, toksR]
      rw [List.append_assoc, List.append_assoc,
        ihA.2 (" and ".toList ++ (textW B σ ++ rest)) (hsp _),
        show " and ".toList ++ (textW B σ ++ rest) =
          ' ' :: 'a' :: 'n' :: 'd' :: ' ' :: (textW B σ ++ rest) from rfl,
        tokenize_and_seg, ihB.2 rest hrest]
      simp
    refine ⟨hr, ?_⟩
    intro rest hrest
    simp only [textW, toksW]
    rw [show ('(' :: (textR (Formula.conj A B) σ ++ [')'])) ++ rest =
        '(' :: (textR (Formula.conj A B) σ ++ (')' :: rest)) from by simp,
      tokenize_lp_cons, hr (')' :: rest) (hrp rest), tokenize_rp_cons]
    simp
  | disj A B ihA ihB =>
    have hr : ∀ rest : List Char, (∀ d, rest.head? = some d → isWordChar d = false) →
        tokenize (textR (Formula.disj A B) σ ++ rest) =
          toksR (Formula.disj A B) σ ++ tokenize rest := by
      intro rest hrest
      simp only [textR, toksR]
      rw [List.append_assoc, List.append_assoc,
        ihA.2 (" or ".toList ++ (textW B σ ++ rest)) (hsp _),
        show " or ".toList ++ (textW B σ ++ rest) =
          ' ' :: 'o' :: 'r' :: ' ' :: (textW B σ ++ rest) from rfl,
        tokenize_or_seg, ihB.2 rest hrest]
      simp
    refine ⟨hr, ?_⟩
    intro rest hrest
    simp only [textW, toksW]
    rw [show ('(' :: (textR (Formula.disj A B) σ ++ [')'])) ++ rest =
        '(' :: (textR (Formula.disj A B) σ ++ (')' :: rest)) from by simp,
      tokenize_lp_cons, hr (')' :: rest) (hrp rest), tokenize_rp_cons]
    simp
  | impl A B ihA ihB =>
    have hr : ∀ rest : List Char, (∀ d, rest.head? = some d → isWordChar d = false) →
        tokenize (textR (Formula.impl A B) σ ++ rest) =
          toksR (Formula.impl A B) σ ++ tokenize rest := by
      intro rest hrest
      simp only [textR, toksR]
      rw [List.append_assoc, List.append_assoc,
        ihA.2 (" <= ".toList ++ (textW B σ ++ rest)) (hsp _),
        show " <= ".toList ++ (textW B σ ++ rest) =
          ' ' :: '<' :: '=' :: ' ' :: (textW B σ ++ rest) from rfl,
        tokenize_le_seg, ihB.2 rest hrest]
      simp
    refine ⟨hr, ?_⟩
    intro rest hrest
    simp only [textW, toksW]
    rw [show ('(' :: (textR (Formula.impl A B) σ ++ [')'])) ++ rest =
        '(' :: (textR (Formula.impl A B) σ ++ (')' :: rest)) from by simp,
      tokenize_lp_cons, hr (')' :: rest) (hrp rest), tokenize_rp_cons]
    simp
  | iffc A B ihA ihB =>
    have hr : ∀ rest : List Char, (∀ d, rest.head? = some d → isWordChar d = false) →
        tokenize (textR (Formula.iffc A B) σ ++ rest) =
          toksR (Formula.iffc A B) σ ++ tokenize rest := by
      intro rest hrest
      simp only [textR, toksR]
      rw [List.append_assoc, List.append_assoc,
        ihA.2 (" == ".toList ++ (textW B σ ++ rest)) (hsp _),
        show " == ".toList ++ (textW B σ ++ rest) =
          ' ' :: '=' :: '=' :: ' ' :: (textW B σ ++ rest) from rfl,
        tokenize_eq_seg, ihB.2 rest hrest]
      simp
    refine ⟨hr, ?_⟩
    intro rest hrest
    simp only [textW, toksW]
    rw [show ('(' :: (textR (Formula.iffc A B) σ ++ [')'])) ++ rest =
        '(' :: (textR (Formula.iffc A B) σ ++ (')' :: rest)) from by simp,
      tokenize_lp_cons, hr (')' :: rest) (hrp rest), tokenize_rp_cons]
    simp

theorem pyNot_boolInt (b : Bool) : pyNot (boolInt b) = boolInt (!b) := by
  cases b <;> decide

theorem pyAnd_boolInt (a b : Bool) :
    pyAnd (boolInt a) (boolInt b) = boolInt (a && b) := by
  cases a <;> cases b <;> decide

theorem pyOr_boolInt (a b : Bool) :
    pyOr (boolInt a) (boolInt b) = boolInt (a || b) := by
  cases a <;> cases b <;> decide

theorem pyLE_boolInt (a b : Bool) : pyLE (boolInt a) (boolInt b) = (!a || b) := by
  cases a <;> cases b <;> decide

theorem pyEQ_boolInt (a b : Bool) : pyEQ (boolInt a) (boolInt b) = (a == b) := by
  cases a <;> cases b <;> decide

theorem head_cons_ne (a b : Tok) (l : List Tok) (h : a ≠ b) :
    (a :: l).head? ≠ some b := by
  rw [List.head?_cons]
  intro hc
  injection hc with h2
  exact h h2

/-- An operand's token image starts with a literal or an opening parenthesis,
never with the negation keyword. -/
theorem toksW_head_ne_not (F : Formula) (σ : V → Bool) (rest : List Tok) :
    (toksW F σ ++ rest).head? ≠ some Tok.NOT := by
  cases F with
  | var v => cases hv : σ v <;> simp [toksW, bTok, hv]
  | neg A => simp [toksW]
  | conj A B => simp [toksW]
  | disj A B => simp [toksW]
  | impl A B => simp [toksW]
  | iffc A B => simp [toksW]

/-- A completed atom parse lifts to the `not` level when nothing that those
levels consume follows. -/
theorem parse_level0_to2 (k : Nat) (toks rest : List Tok) (v : Int)
    (h : parseLvl (k + 1) 0 (toks ++ rest) = some (v, rest))
    (hhead : (toks ++ rest).head? ≠ some Tok.NOT)
    (hLE : rest.head? ≠ some Tok.LE) (hEQ : rest.head? ≠ some Tok.EQ) :
    parseLvl (k + 1 + 1 + 1) 2 (toks ++ rest) = some (v, rest) := by
  rw [parseLvl_two_other (k + 1 + 1) (toks ++ rest) hhead, parseLvl_one]
  simp only [h]
  exact cmpRest_exit k v rest hLE hEQ

theorem parse_level2_to3 (k : Nat) (toks : List Tok) (v : Int) (rest : List Tok)
    (h : parseLvl (k + 1) 2 toks = some (v, rest))
    (hA : rest.head? ≠ some Tok.AND) :
    parseLvl (k + 1 + 1) 3 toks = some (v, rest) := by
  rw [parseLvl_three]
  simp only [h]
  exact andRest_exit k v rest hA

theorem parse_level3_to4 (k : Nat) (toks : List Tok) (v : Int) (rest : List Tok)
    (h : parseLvl (k + 1) 3 toks = some (v, rest))
    (hO : rest.head? ≠ some Tok.OR) :
    parseLvl (k + 1 + 1) 4 toks = some (v, rest) := by
  rw [parseLvl_four]
  simp only [h]
  exact orRest_exit k v rest hO

theorem parse_level0_to4 (k : Nat) (toks rest : List Tok) (v : Int)
    (h : parseLvl (k + 1) 0 (toks ++ rest) = some (v, rest))
    (hhead : (toks ++ rest).head? ≠ some Tok.NOT)
    (hstop : ∀ t, rest.head? = some t → t = Tok.RP) :
    parseLvl (k + 1 + 1 + 1 + 1 + 1) 4 (toks ++ rest) = some (v, rest) := by
  have hne : ∀ t : Tok, t ≠ Tok.RP → rest.head? ≠ some t :=
    fun t ht hcon => ht (hstop t hcon)
  exact parse_level3_to4 (k + 1 + 1 + 1) _ v rest
    (parse_level2_to3 (k + 1 + 1) _ v rest
      (parse_level0_to2 k toks rest v h hhead
        (hne Tok.LE (by decide)) (hne Tok.EQ (by decide)))
      (hne Tok.AND (by decide)))
    (hne Tok.OR (by decide))

/-- The parser computes the truth-functional semantics on token images: an
operand image parses at the atom level, a full image parses at the top level
when only a closing parenthesis (or nothing) follows, and both leave exactly
the continuation unconsumed. -/
theorem parse_correct (σ : V → Bool) : ∀ F : Formula,
    (∀ (rest : List Tok) (f : Nat), 6 * (toksW F σ).length + 6 ≤ f →
      parseLvl f 0 (toksW F σ ++ rest) = some (boolInt (denote F σ), rest)) ∧
    (∀ (rest : List Tok) (f : Nat), 6 * (toksR F σ).length + 12 ≤ f →
      (∀ t, rest.head? = some t → t = Tok.RP) →
      parseLvl f 4 (toksR F σ ++ rest) = some (boolInt (denote F σ), rest)) := by
  intro F
  induction F with
  | var v =>
    have hPW : ∀ (rest : List Tok) (f : Nat),
        6 * (toksW (Formula.var v) σ).length + 6 ≤ f →
        parseLvl f 0 (toksW (Formula.var v) σ ++ rest) =
          some (boolInt (denote (Formula.var v) σ), rest) := by
      intro rest f hf
      obtain ⟨k, rfl⟩ : ∃ k, f = k + 1 := ⟨f - 1, by omega⟩
      cases hv : σ v with
      | false =>
        rw [show toksW (Formula.var v) σ ++ rest = Tok.FALSE :: rest from by
          simp [toksW, bTok, hv]]
        rw [parseLvl_false]
        simp [denote, hv, boolInt]
      | true =>
        rw [show toksW (Formula.var v) σ ++ rest = Tok.TRUE :: rest from by
          simp [toksW, bTok, hv]]
        rw [parseLvl_true]
        simp [denote, hv, boolInt]
    refine ⟨hPW, ?_⟩
    intro rest f hf hstop
    simp only [toksR, List.length_cons, List.length_nil] at hf
    obtain ⟨k, rfl⟩ : ∃ k, f = k + 1 + 1 + 1 + 1 + 1 := ⟨f - 5, by omega⟩
    rw [show toksR (Formula.var v) σ = toksW (Formula.var v) σ from by
      simp [toksR, toksW]]
    exact parse_level0_to4 k _ rest _
      (hPW rest (k + 1)
        (by simp only [toksW, List.length_cons, List.length_nil]; omega))
      (toksW_head_ne_not (Formula.var v) σ rest) hstop
  | neg A ihA =>
    have hR : ∀ (rest : List Tok) (f : Nat),
        6 * (toksR (Formula.neg A) σ).length + 12 ≤ f →
        (∀ t, rest.head? = some t → t = Tok.RP) →
        parseLvl f 4 (toksR (Formula.neg A) σ ++ rest) =
          some (boolInt (denote (Formula.neg A) σ), rest) := by
      intro rest f hf hstop
      simp only [toksR, List.length_cons] at hf
      obtain ⟨k, rfl⟩ : ∃ k, f = k + 1 + 1 + 1 + 1 + 1 + 1 := ⟨f - 6, by omega⟩
      have hne : ∀ t : Tok, t ≠ Tok.RP → rest.head? ≠ some t :=
        fun t ht hcon => ht (hstop t hcon)
      have h2 : parseLvl (k + 1 + 1 + 1) 2 (toksW A σ ++ rest) =
          some (boolInt (denote A σ), rest) :=
        parse_level0_to2 k (toksW A σ) rest _
          (ihA.1 rest (k + 1) (by omega))
          (toksW_head_ne_not A σ rest)
          (hne Tok.LE (by decide)) (hne Tok.EQ (by decide))
      have h3 : parseLvl (k + 1 + 1 + 1 + 1) 2
          (Tok.NOT :: (toksW A σ ++ rest)) =
          some (boolInt (denote (Formula.neg A) σ), rest) := by
        rw [parseLvl_two_not]
        simp only [h2, pyNot_boolInt]
        simp [denote]
      rw [show toksR (Formula.neg A) σ ++ rest =
          Tok.NOT :: (toksW A σ ++ rest) from by simp [toksR]]
      exact parse_level3_to4 (k + 1 + 1 + 1 + 1) _ _ rest
        (parse_level2_to3 (k + 1 + 1 + 1) _ _ rest h3 (hne Tok.AND (by decide)))
        (hne Tok.OR (by decide))
    refine ⟨?_, hR⟩
    intro rest f hf
    obtain ⟨k, rfl⟩ : ∃ k, f = k + 1 := ⟨f - 1, by omega⟩
    rw [show toksW (Formula.neg A) σ ++ rest =
        Tok.LP :: (toksR (Formula.neg A) σ ++ (Tok.RP :: rest)) from by simp [toksW]]
    rw [parseLvl_lp]
    rw [hR (Tok.RP :: rest) k
      (by
        simp only [toksW, List.length_cons, List.length_append,
          List.length_nil] at hf
        omega)
      (by
        intro t ht
        rw [List.head?_cons] at ht
        injection ht with h
        exact h.symm)]
  | conj A B ihA ihB =>
    have hR : ∀ (rest : List Tok) (f : Nat),
        6 * (toksR (Formula.conj A B) σ).length + 12 ≤ f →
        (∀ t, rest.head? = some t → t = Tok.RP) →
        parseLvl f 4 (toksR (Formula.conj A B) σ ++ rest) =
          some (boolInt (denote (Formula.conj A B) σ), rest) := by
      intro rest f hf hstop
      simp only [toksR, List.length_append, List.length_cons] at hf
      obtain ⟨k, rfl⟩ : ∃ k, f = k + 1 + 1 + 1 + 1 + 1 + 1 := ⟨f - 6, by omega⟩
      have hne : ∀ t : Tok, t ≠ Tok.RP → rest.head? ≠ some t :=
        fun t ht hcon => ht (hstop t hcon)
      have h2a : parseLvl (k + 1 + 1 + 1 + 1) 2
          (toksW A σ ++ (Tok.AND :: (toksW B σ ++ rest))) =
          some (boolInt (denote A σ), Tok.AND :: (toksW B σ ++ rest)) :=
        parse_level0_to2 (k + 1) (toksW A σ) (Tok.AND :: (toksW B σ ++ rest)) _
          (ihA.1 (Tok.AND :: (toksW B σ ++ rest)) (k + 1 + 1) (by omega))
          (toksW_head_ne_not A σ _)
          (head_cons_ne _ _ _ (by decide)) (head_cons_ne _ _ _ (by decide))
      have h2b : parseLvl (k + 1 + 1 + 1) 2 (toksW B σ ++ rest) =
          some (boolInt (denote B σ), rest) :=
        parse_level0_to2 k (toksW B σ) rest _
          (ihB.1 rest (k + 1) (by omega))
          (toksW_head_ne_not B σ rest)
          (hne Tok.LE (by decide)) (hne Tok.EQ (by decide))
      have h3 : parseLvl (k + 1 + 1 + 1 + 1 + 1) 3
          (toksW A σ ++ (Tok.AND :: (toksW B σ ++ rest))) =
          some (boolInt (denote A σ && denote B σ), rest) := by
        rw [parseLvl_three]
        simp only [h2a]
        rw [andRest_and]
        simp only [h2b, pyAnd_boolInt]
        exact andRest_exit (k + 1 + 1) _ rest (hne Tok.AND (by decide))
      rw [show toksR (Formula.conj A B) σ ++ rest =
          toksW A σ ++ (Tok.AND :: (toksW B σ ++ rest)) from by simp [toksR]]
      rw [parseLvl_four]
      simp only [h3]
      rw [orRest_exit (k + 1 + 1 + 1 + 1) _ rest (hne Tok.OR (by decide))]
      simp [denote]
    refine ⟨?_, hR⟩
    intro rest f hf
    obtain ⟨k, rfl⟩ : ∃ k, f = k + 1 := ⟨f - 1, by omega⟩
    rw [show toksW (Formula.conj A B) σ ++ rest =
        Tok.LP :: (toksR (Formula.conj A B) σ ++ (Tok.RP :: rest)) from by simp [toksW]]
    rw [parseLvl_lp]
    rw [hR (Tok.RP :: rest) k
      (by
        simp only [toksW, List.length_cons, List.length_append,
          List.length_nil] at hf
        omega)
      (by
        intro t ht
        rw [List.head?_cons] at ht
        injection ht with h
        exact h.symm)]
  | disj A B ihA ihB =>
    have hR : ∀ (rest : List Tok) (f : Nat),
        6 * (toksR (Formula.disj A B) σ).length + 12 ≤ f →
        (∀ t, rest.head? = some t → t = Tok.RP) →
        parseLvl f 4 (toksR (Formula.disj A B) σ ++ rest) =
          some (boolInt (denote (Formula.disj A B) σ), rest) := by
      intro rest f hf hstop
      simp only [toksR, List.length_append, List.length_cons] at hf
      obtain ⟨k, rfl⟩ : ∃ k, f = k + 1 + 1 + 1 + 1 + 1 + 1 := ⟨f - 6, by omega⟩
      have hne : ∀ t : Tok, t ≠ Tok.RP → rest.head? ≠ some t :=
        fun t ht hcon => ht (hstop t hcon)
      have h2a : parseLvl (k + 1 + 1 + 1 + 1) 2
          (toksW A σ ++ (Tok.OR :: (toksW B σ ++ rest))) =
          some (boolInt (denote A σ), Tok.OR :: (toksW B σ ++ rest)) :=
        parse_level0_to2 (k + 1) (toksW A σ) (Tok.OR :: (toksW B σ ++ rest)) _
          (ihA.1 (Tok.OR :: (toksW B σ ++ rest)) (k + 1 + 1) (by omega))
          (toksW_head_ne_not A σ _)
          (head_cons_ne _ _ _ (by decide)) (head_cons_ne _ _ _ (by decide))
      have h3a : parseLvl (k + 1 + 1 + 1 + 1 + 1) 3
          (toksW A σ ++ (Tok.OR :: (toksW B σ ++ rest))) =
          some (boolInt (denote A σ), Tok.OR :: (toksW B σ ++ rest)) := by
        rw [parseLvl_three]
        simp only [h2a]
        exact andRest_exit (k + 1 + 1 + 1) _ _ (head_cons_ne _ _ _ (by decide))
      have h2b : parseLvl (k + 1 + 1 + 1) 2 (toksW B σ ++ rest) =
          some (boolInt (denote B σ), rest) :=
        parse_level0_to2 k (toksW B σ) rest _
          (ihB.1 rest (k + 1) (by omega))
          (toksW_head_ne_not B σ rest)
          (hne Tok.LE (by decide)) (hne Tok.EQ (by decide))
      have h3b : parseLvl (k + 1 + 1 + 1 + 1) 3 (toksW B σ ++ rest) =
          some (boolInt (denote B σ), rest) := by
        rw [parseLvl_three]
        simp only [h2b]
        exact andRest_exit (k + 1 + 1) _ rest (hne Tok.AND (by decide))
      rw [show toksR (Formula.disj A B) σ ++ rest =
          toksW A σ ++ (Tok.OR :: (toksW B σ ++ rest)) from by simp [toksR]]
      rw [parseLvl_four]
      simp only [h3a]
      rw [orRest_or]
      simp only [h3b, pyOr_boolInt]
      rw [orRest_exit (k + 1 + 1 + 1) _ rest (hne Tok.OR (by decide))]
      simp [denote]
    refine ⟨?_, hR⟩
    intro rest f hf
    obtain ⟨k, rfl⟩ : ∃ k, f = k + 1 := ⟨f - 1, by omega⟩
    rw [show toksW (Formula.disj A B) σ ++ rest =
        Tok.LP :: (toksR (Formula.disj A B) σ ++ (Tok.RP :: rest)) from by simp [toksW]]
    rw [parseLvl_lp]
    rw [hR (Tok.RP :: rest) k
      (by
        simp only [toksW, List.length_cons, List.length_append,
          List.length_nil] at hf
        omega)
      (by
        intro t ht
        rw [List.head?_cons] at ht
        injection ht with h
        exact h.symm)]
  | impl A B ihA ihB =>
    have hR : ∀ (rest : List Tok) (f : Nat),
        6 * (toksR (Formula.impl A B) σ).length + 12 ≤ f →
        (∀ t, rest.head? = some t → t = Tok.RP) →
        parseLvl f 4 (toksR (Formula.impl A B) σ ++ rest) =
          some (boolInt (denote (Formula.impl A B) σ), rest) := by
      intro rest f hf hstop
      simp only [toksR, List.length_append, List.length_cons] at hf
      obtain ⟨k, rfl⟩ : ∃ k, f = k + 1 + 1 + 1 + 1 + 1 + 1 := ⟨f - 6, by omega⟩
      have hne : ∀ t : Tok, t ≠ Tok.RP → rest.head? ≠ some t :=
        fun t ht hcon => ht (hstop t hcon)
      have h1 : parseLvl (k + 1 + 1 + 1) 1
          (toksW A σ ++ (Tok.LE :: (toksW B σ ++ rest))) =
          some (boolInt (denote (Formula.impl A B) σ), rest) := by
        rw [parseLvl_one]
        simp only [ihA.1 (Tok.LE :: (toksW B σ ++ rest)) (k + 1 + 1) (by omega)]
        rw [cmpRest_le]
        simp only [ihB.1 rest (k + 1) (by omega)]
        rw [cmpChain_exit k _ _ rest (hne Tok.LE (by decide))
          (hne Tok.EQ (by decide))]
        simp [pyLE_boolInt, denote]
      have h2 : parseLvl (k + 1 + 1 + 1 + 1) 2
          (toksW A σ ++ (Tok.LE :: (toksW B σ ++ rest))) =
          some (boolInt (denote (Formula.impl A B) σ), rest) := by
        rw [parseLvl_two_other (k + 1 + 1 + 1) _ (toksW_head_ne_not A σ _)]
        exact h1
      rw [show toksR (Formula.impl A B) σ ++ rest =
          toksW A σ ++ (Tok.LE :: (toksW B σ ++ rest)) from by simp [toksR]]
      exact parse_level3_to4 (k + 1 + 1 + 1 + 1) _ _ rest
        (parse_level2_to3 (k + 1 + 1 + 1) _ _ rest h2 (hne Tok.AND (by decide)))
        (hne Tok.OR (by decide))
    refine ⟨?_, hR⟩
    intro rest f hf
    obtain ⟨k, rfl⟩ : ∃ k, f = k + 1 := ⟨f - 1, by omega⟩
    rw [show toksW (Formula.impl A B) σ ++ rest =
        Tok.LP :: (toksR (Formula.impl A B) σ ++ (Tok.RP :: rest)) from by simp [toksW]]
    rw [parseLvl_lp]
    rw [hR (Tok.RP :: rest) k
      (by
        simp only [toksW, List.length_cons, List.length_append,
          List.length_nil] at hf
        omega)
      (by
        intro t ht
        rw [List.head?_cons] at ht
        injection ht with h
        exact h.symm)]
  | iffc A B ihA ihB =>
    have hR : ∀ (rest : List Tok) (f : Nat),
        6 * (toksR (Formula.iffc A B) σ).length + 12 ≤ f →
        (∀ t, rest.head? = some t → t = Tok.RP) →
        parseLvl f 4 (toksR (Formula.iffc A B) σ ++ rest) =
          some (boolInt (denote (Formula.iffc A B) σ), rest) := by
      intro rest f hf hstop
      simp only [toksR, List.length_append, List.length_cons] at hf
      obtain ⟨k, rfl⟩ : ∃ k, f = k + 1 + 1 + 1 + 1 + 1 + 1 := ⟨f - 6, by omega⟩
      have hne : ∀ t : Tok, t ≠ Tok.RP → rest.head? ≠ some t :=
        fun t ht hcon => ht (hstop t hcon)
      have h1 : parseLvl (k + 1 + 1 + 1) 1
          (toksW A σ ++ (Tok.EQ :: (toksW B σ ++ rest))) =
          some (boolInt (denote (Formula.iffc A B) σ), rest) := by
        rw [parseLvl_one]
        simp only [ihA.1 (Tok.EQ :: (toksW B σ ++ rest)) (k + 1 + 1) (by omega)]
        rw [cmpRest_eq2]
        simp only [ihB.1 rest (k + 1) (by omega)]
        rw [cmpChain_exit k _ _ rest (hne Tok.LE (by decide))
          (hne Tok.EQ (by decide))]
        simp [pyEQ_boolInt, denote]
      have h2 : parseLvl (k + 1 + 1 + 1 + 1) 2
          (toksW A σ ++ (Tok.EQ :: (toksW B σ ++ rest))) =
          some (boolInt (denote (Formula.iffc A B) σ), rest) := by
        rw [parseLvl_two_other (k + 1 + 1 + 1) _ (toksW_head_ne_not A σ _)]
        exact h1
      rw [show toksR (Formula.iffc A B) σ ++ rest =
          toksW A σ ++ (Tok.EQ :: (toksW B σ ++ rest)) from by simp [toksR]]
      exact parse_level3_to4 (k + 1 + 1 + 1 + 1) _ _ rest
        (parse_level2_to3 (k + 1 + 1 + 1) _ _ rest h2 (hne Tok.AND (by decide)))
        (hne Tok.OR (by decide))
    refine ⟨?_, hR⟩
    intro rest f hf
    obtain ⟨k, rfl⟩ : ∃ k, f = k + 1 := ⟨f - 1, by omega⟩
    rw [show toksW (Formula.iffc A B) σ ++ rest =
        Tok.LP :: (toksR (Formula.iffc A B) σ ++ (Tok.RP :: rest)) from by simp [toksW]]
    rw [parseLvl_lp]
    rw [hR (Tok.RP :: rest) k
      (by
        simp only [toksW, List.length_cons, List.length_append,
          List.length_nil] at hf
        omega)
      (by
        intro t ht
        rw [List.head?_cons] at ht
        injection ht with h
        exact h.symm)]

theorem toksR_length_pos (F : Formula) (σ : V → Bool) : 1 ≤ (toksR F σ).length := by
  cases F <;> simp [toksR] <;> omega

theorem canonDict_keys (F : Formula) (σ : V → Bool) :
    ∀ x ∈ canonDict F σ, x.1 ∈ varChars := by
  intro x hx
  unfold canonDict at hx
  obtain ⟨c, hc, rfl⟩ := List.mem_map.mp hx
  exact (((extract_variables_spec (render F)).1 c).mp hc).2

theorem map_fst_pair (g : Char → Char) : ∀ l : List Char,
    (l.map (fun d => (d, g d))).map Prod.fst = l := by
  intro l
  induction l with
  | nil => rfl
  | cons c l ih => simp [ih]

theorem canonDict_fst (F : Formula) (σ : V → Bool) :
    (canonDict F σ).map Prod.fst = extract_variables (render F) := by
  unfold canonDict
  exact map_fst_pair _ _

theorem find?_map_key (g : Char → Char) :
    ∀ (l : List Char), l.Nodup → ∀ c ∈ l,
    (l.map (fun d => (d, g d))).find? (fun x => decide (x.1 = c)) = some (c, g c) := by
  intro l
  induction l with
  | nil => intro _ c hc; exact absurd hc (List.not_mem_nil c)
  | cons d l ih =>
    intro hnd c hc
    rw [List.map_cons]
    rcases List.mem_cons.mp hc with rfl | hc2
    · rw [List.find?_cons_of_pos _ (by simp)]
    · have hd : ¬(d = c) := fun h => (List.nodup_cons.mp hnd).1 (h ▸ hc2)
      rw [List.find?_cons_of_neg _ (by simpa using hd)]
      exact ih (List.nodup_cons.mp hnd).2 c hc2

theorem canonDict_find (F : Formula) (σ : V → Bool) (c : Char)
    (hc : c ∈ render F) (hcv : c ∈ varChars) :
    (canonDict F σ).find? (fun x => decide (x.1 = c)) =
      some (c, if σ (charToV c) then 'T' else 'F') := by
  have hmem : c ∈ extract_variables (render F) :=
    ((extract_variables_spec (render F)).1 c).mpr ⟨hc, hcv⟩
  have hnd : (extract_variables (render F)).Nodup :=
    (extract_variables_spec (render F)).2.1
  unfold canonDict
  exact find?_map_key _ (extract_variables (render F)) hnd c hmem

/-- C1: for every formula built from a single connective applied to operands —
and for every nesting in which grouping is explicit via parentheses — and
every total assignment of its variables, `evaluate_formula` on the rendered
text with the table's assignment dictionary returns exactly the
truth-functional result given by ¬A = not A, A∧B = A and B, A∨B = A or B,
A→B = (not A) or B, A↔B = (A == B). -/
theorem evaluate_formula_truth_functional (F : Formula) (σ : V → Bool) :
    evaluate_formula (render F) (canonDict F σ) =
      some (if denote F σ then 'T' else 'F') := by
  have htv := canonDict_keys F σ
  have hnd : ((canonDict F σ).map Prod.fst).Nodup := by
    rw [canonDict_fst]
    exact (extract_variables_spec (render F)).2.1
  have hsub := substituteVars_flatMap (canonDict F σ) (render F) htv hnd
    (render_alpha F).1 (render_sep F).1
  have hdict : DictOK (canonDict F σ) σ (render F) :=
    fun c hc hcv => canonDict_find F σ c hc hcv
  have htext := (flatMap_textR (canonDict F σ) htv σ F).1 hdict
  have htok : tokenize (textR F σ) = toksR F σ := by
    have h := (tokenize_textR σ F).1 [] (by intro d hd; exact Option.noConfusion hd)
    rw [List.append_nil] at h
    rw [h, show tokenize ([] : List Char) = [] from rfl, List.append_nil]
  have hparse := (parse_correct σ F).2 [] (10 * (toksR F σ).length + 10)
    (by have := toksR_length_pos F σ; omega)
    (by intro t ht; exact Option.noConfusion ht)
  rw [List.append_nil] at hparse
  unfold evaluate_formula pyEval
  rw [hsub, replaceConnectives_flatMap, htext, htok]
  simp only [hparse]
  cases hb : denote F σ <;> simp [boolInt]

end DM
